import Mathlib

/-!
# Verification of the `EditableSelection` engine (wizdm)

Shallow embedding of `EditableSelection` (the selection engine mapping a
browser range onto the internal editable document tree) together with the
document-tree collaborator it operates on.

The tree collaborator (`EditableText` / `EditableContent`) is not part of the
sources under verification; it is modelled from the specification's interface
contract (spec section 6).  The model is a flat arena: a document is an ordered
list of containers, each container an ordered list of leaves.  A node is
addressed by the pair (container index, leaf index); JavaScript object identity
between two leaf references corresponds to equality of addresses, and the
tree's `removed` flag is kept on the node so that stale references can be
detected exactly as in the source.  Offsets are `Int`, matching JavaScript
numbers (the source stores and compares possibly negative offsets).
-/

set_option maxHeartbeats 1000000

namespace Wizdm

/-- Modelled from the spec: a text-style flag (`wmTextStyle`). -/
abbrev TextStyle := String

/-- Modelled from the spec: the inline node type, `'text'` or `'link'`. -/
inductive NType
  | text
  | link
deriving DecidableEq, Repr

/-- Modelled from the spec: a Leaf is "a contiguous run of characters (or a
hyperlink run) sharing one style"; it carries its text `value`, its `style`
flags, its node type, the hyperlink target (meaningful on `link` nodes) and
the `removed` flag the tree raises when the node is detached. -/
structure Leaf where
  value : List Char
  style : List TextStyle
  ntype : NType
  url : String
  removed : Bool
deriving DecidableEq, Repr

/-- Modelled from the spec: a Container is "a structural node owning an ordered
sequence of children", with a `type`, an alignment, an indentation `level` and
the `removed` flag. In this flat model every container owns leaves directly. -/
structure Container where
  ctype : String
  align : String
  level : Nat
  removed : Bool
  leaves : List Leaf
deriving DecidableEq, Repr

/-- Modelled from the spec: the document tree root, owning the ordered list of
containers.  (`EditableContent<wmDocument>`). -/
structure Doc where
  containers : List Container
deriving DecidableEq, Repr

/-- A node address: (container index, leaf index).  Two JavaScript references
denote the same `EditableText` object exactly when their addresses agree. -/
abbrev Addr := Nat × Nat

/-- Plain text leaf constructor (no link, not removed). -/
def mkText (v : List Char) (st : List TextStyle) : Leaf :=
  ⟨v, st, NType.text, "", false⟩

/-- Hyperlink leaf constructor. -/
def mkLink (v : List Char) (st : List TextStyle) (u : String) : Leaf :=
  ⟨v, st, NType.link, u, false⟩

/-- Plain paragraph-like container holding the given leaves. -/
def mkItem (ls : List Leaf) : Container :=
  ⟨"item", "left", 0, false, ls⟩

def getContainer (d : Doc) (ci : Nat) : Option Container :=
  d.containers[ci]?

def getLeaf (d : Doc) (a : Addr) : Option Leaf :=
  (getContainer d a.1).bind fun c => c.leaves[a.2]?

/-- `node.length` — the character count of the leaf's value (0 when the
address does not denote a leaf; well-formed callers never hit that case). -/
def leafLen (d : Doc) (a : Addr) : Nat :=
  ((getLeaf d a).map fun lf => lf.value.length).getD 0

/-- `node.empty` — true when the leaf's value holds no characters. -/
def leafEmpty (d : Doc) (a : Addr) : Bool :=
  leafLen d a == 0

/-- `node.type === 'link'`. -/
def isLinkLeaf (d : Doc) (a : Addr) : Bool :=
  ((getLeaf d a).map fun lf => lf.ntype == NType.link).getD false

/-- Replace the container at index `ci` (identity when out of range). -/
def modifyContainer (d : Doc) (ci : Nat) (f : Container → Container) : Doc :=
  match d.containers[ci]? with
  | none => d
  | some c => ⟨d.containers.set ci (f c)⟩

/-- Replace the leaf at address `a` (identity when out of range). -/
def modifyLeaf (d : Doc) (a : Addr) (f : Leaf → Leaf) : Doc :=
  modifyContainer d a.1 fun c =>
    match c.leaves[a.2]? with
    | none => c
    | some lf => { c with leaves := c.leaves.set a.2 (f lf) }

/-- Replace the whole leaf list of container `ci`. -/
def setLeaves (d : Doc) (ci : Nat) (ls : List Leaf) : Doc :=
  modifyContainer d ci fun c => { c with leaves := ls }

/-- Total number of leaves in the document (used to bound traversal loops). -/
def totalLeaves (d : Doc) : Nat :=
  (d.containers.map fun c => c.leaves.length).sum

/-- `a.siblings(b)` — both leaves share the same immediate container. -/
def siblings (a b : Addr) : Bool :=
  a.1 == b.1

/-- Modelled from the spec: `compare(other)` is the document-order comparison
between two leaves; in the flat model this is the lexicographic comparison of
addresses. -/
def cmpAddr (a b : Addr) : Int :=
  if a.1 < b.1 then -1
  else if b.1 < a.1 then 1
  else if a.2 < b.2 then -1
  else if b.2 < a.2 then 1
  else 0

/-- Document-order comparison between a container and a leaf: in pre-order the
container starts before every leaf it owns and before every later leaf. -/
def cmpContainerLeaf (ci : Nat) (e : Addr) : Int :=
  if ci ≤ e.1 then -1 else 1

/-- Last leaf of the closest container strictly below index `ci` that has
leaves (search for the previous text node across container boundaries). -/
def prevContainerLeaf (d : Doc) : Nat → Option Addr
  | 0 => none
  | ci + 1 =>
    match getContainer d ci with
    | none => prevContainerLeaf d ci
    | some c =>
      if c.leaves.isEmpty then prevContainerLeaf d ci
      else some (ci, c.leaves.length - 1)

/-- Iteration body for `nextContainerLeaf`; the fuel stays aligned with
`d.containers.length + 1 - ci`, so the search always runs to completion. -/
def nextContainerLeafGo (d : Doc) : Nat → Nat → Option Addr
  | _, 0 => none
  | ci, fuel + 1 =>
    match getContainer d ci with
    | none => none
    | some c =>
      if c.leaves.isEmpty then nextContainerLeafGo d (ci + 1) fuel
      else some (ci, 0)

/-- First leaf of the closest container at index `ci` or later that has
leaves (search for the next text node across container boundaries). -/
def nextContainerLeaf (d : Doc) (ci : Nat) : Option Addr :=
  nextContainerLeafGo d ci (d.containers.length + 1 - ci)

/-- `node.previousText(true)` — the previous leaf in document order, crossing
container boundaries. -/
def prevText (d : Doc) (a : Addr) : Option Addr :=
  if 0 < a.2 then some (a.1, a.2 - 1) else prevContainerLeaf d a.1

/-- `node.nextText(true)` — the next leaf in document order, crossing
container boundaries. -/
def nextTextCross (d : Doc) (a : Addr) : Option Addr :=
  match getContainer d a.1 with
  | none => none
  | some c =>
    if a.2 + 1 < c.leaves.length then some (a.1, a.2 + 1)
    else nextContainerLeaf d (a.1 + 1)

/-- `node.previousText()` — the previous leaf within the same container. -/
def prevTextSib (a : Addr) : Option Addr :=
  if 0 < a.2 then some (a.1, a.2 - 1) else none

/-- `node.nextText()` — the next leaf within the same container. -/
def nextTextSib (d : Doc) (a : Addr) : Option Addr :=
  match getContainer d a.1 with
  | none => none
  | some c =>
    if a.2 + 1 < c.leaves.length then some (a.1, a.2 + 1) else none

/-! ## The selection state (`EditableSelection`'s fields) -/

/-- `EditableSelection`'s mutable state: the two endpoints (`start`/`startOfs`
and `end`/`endOfs`; `end` is a Lean keyword and is rendered `endP`), the
`modified` dirty flag and the stack of saved absolute positions (each an
`[EditableContent, number]` pair, the container possibly `null`). -/
structure Sel where
  start : Option Addr
  startOfs : Int
  endP : Option Addr
  endOfs : Int
  modified : Bool
  stack : List (Option Nat × Int)
deriving DecidableEq, Repr

/-- `get valid(): boolean { return !!this.start && !!this.end; }` -/
def Sel.valid (s : Sel) : Bool :=
  s.start.isSome && s.endP.isSome

/-- `get single()` — valid and `start === end` (object identity = address). -/
def Sel.single (s : Sel) : Bool :=
  s.valid && s.start == s.endP

/-- `get multi(): boolean { return !this.single; }` -/
def Sel.multi (s : Sel) : Bool :=
  !s.single

/-- `get collapsed()` — single and equal offsets. -/
def Sel.collapsed (s : Sel) : Bool :=
  s.single && s.startOfs == s.endOfs

/-- `mark(modified = true)` — `this.modified = this.valid && modified`. -/
def Sel.mark (s : Sel) (modified : Bool) : Sel :=
  { s with modified := s.valid && modified }

/-- `setStart(node, ofs)` — assigns the start point; a negative offset is the
"end of leaf" sentinel and resolves to the node's length at assignment time. -/
def setStartS (d : Doc) (s : Sel) (n : Option Addr) (ofs : Int) : Sel :=
  { s with
    start := n
    startOfs :=
      match n with
      | some a => if ofs < 0 then (leafLen d a : Int) else ofs
      | none => ofs
    modified := true }

/-- `setEnd(node, ofs)` — same for the end point. -/
def setEndS (d : Doc) (s : Sel) (n : Option Addr) (ofs : Int) : Sel :=
  { s with
    endP := n
    endOfs :=
      match n with
      | some a => if ofs < 0 then (leafLen d a : Int) else ofs
      | none => ofs
    modified := true }

/-- `set(start, startOfs, end, endOfs)`. -/
def setS (d : Doc) (s : Sel) (n1 : Option Addr) (o1 : Int)
    (n2 : Option Addr) (o2 : Int) : Sel :=
  setEndS d (setStartS d s n1 o1) n2 o2

/-- `setCursor(node, ofs)` — `set(node, ofs, node, ofs)`. -/
def setCursorS (d : Doc) (s : Sel) (n : Option Addr) (ofs : Int) : Sel :=
  setS d s n ofs n ofs

/-- `collapse()` — `set(start, startOfs, start, startOfs)`. -/
def collapseS (d : Doc) (s : Sel) : Sel :=
  setS d s s.start s.startOfs s.start s.startOfs

/-! ## `movePoint` — signed character motion across leaf boundaries -/

/-- The backward loop of `movePoint`: while the offset is negative, jump to
the previous leaf (crossing container boundaries), adding one implicit
character when the jump crosses a container boundary, then the previous
leaf's length.  The fuel argument only bounds iteration (each step moves
strictly backwards, so `totalLeaves + 1` steps always suffice). -/
def movePointBack (d : Doc) : Addr → Int → Nat → Addr × Int
  | node, offset, 0 => (node, offset)
  | node, offset, fuel + 1 =>
    if offset < 0 then
      match prevText d node with
      | none => (node, 0)
      | some prev =>
        let o1 := if siblings prev node then offset else offset + 1
        movePointBack d prev (o1 + (leafLen d prev : Int)) fuel
    else (node, offset)

/-- The forward loop of `movePoint`: while the offset exceeds the node's
length, jump to the next leaf, decrementing by one when the jump crosses a
container boundary, then subtracting the current leaf's length. -/
def movePointFwd (d : Doc) : Addr → Int → Nat → Addr × Int
  | node, offset, 0 => (node, offset)
  | node, offset, fuel + 1 =>
    if (leafLen d node : Int) < offset then
      match nextTextCross d node with
      | none => (node, (leafLen d node : Int))
      | some next =>
        let o1 := if siblings next node then offset else offset - 1
        movePointFwd d next (o1 - (leafLen d node : Int)) fuel
    else (node, offset)

/-- `movePoint(node, offset, delta)` — shift the offset, then resolve
negative underflow backwards and length overflow forwards. -/
def movePoint (d : Doc) (node : Option Addr) (offset delta : Int) :
    Option Addr × Int :=
  match node with
  | none => (none, offset)
  | some n =>
    let fuel := totalLeaves d + 1
    let back := movePointBack d n (offset + delta) fuel
    let fwd := movePointFwd d back.1 back.2 fuel
    (some fwd.1, fwd.2)

/-- `move(deltaStart, deltaEnd?)` — when `deltaEnd` is omitted both endpoints
take the start point's motion (the whole selection shifts). -/
def moveOp (d : Doc) (s : Sel) (deltaStart : Int) (deltaEnd : Option Int) :
    Sel :=
  let st := movePoint d s.start s.startOfs deltaStart
  let en :=
    match deltaEnd with
    | none => st
    | some de => movePoint d s.endP s.endOfs de
  setS d s st.1 st.2 en.1 en.2

/-! ## Absolute positions, `save`/`restore`, `sort`, `trim` -/

/-- The accumulation loop of `absPoint`: walk the owner container's children
summing lengths until the child that is the node itself (`child === node`,
i.e. leaf index `li`) is met. -/
def sumLen (ls : List Leaf) : Nat :=
  (ls.map fun lf => lf.value.length).sum

/-- `absPoint(node, ofs)` — `[null, 0]` when the node is null or removed
 (or no longer among its container's children); otherwise the owning
container and the running offset of the node plus `ofs`. -/
def absPoint (d : Doc) (n : Option Addr) (ofs : Int) : Option Nat × Int :=
  match n with
  | none => (none, 0)
  | some a =>
    match getLeaf d a with
    | none => (none, 0)
    | some lf =>
      if lf.removed then (none, 0)
      else
        match getContainer d a.1 with
        | none => (none, 0)
        | some c => (some a.1, (sumLen (c.leaves.take a.2) : Int) + ofs)

/-- The search loop of `relPoint`: consume the running offset over the
container's children, stopping at the first child whose length bounds it. -/
def relWalk (ci : Nat) : Nat → List Leaf → Int → Option Addr × Int
  | _, [], _ => (none, 0)
  | i, lf :: rest, ofs =>
    if ofs ≤ (lf.value.length : Int) then (some (ci, i), ofs)
    else relWalk ci (i + 1) rest (ofs - (lf.value.length : Int))

/-- `relPoint(node, ofs)` — resolve an absolute (container, running offset)
pair back to a (leaf, offset) pair. -/
def relPoint (d : Doc) (n : Option Nat) (ofs : Int) : Option Addr × Int :=
  match n with
  | none => (none, 0)
  | some ci =>
    match getContainer d ci with
    | none => (none, 0)
    | some c => relWalk ci 0 c.leaves ofs

/-- `save()` — push the absolute start point, then (sharing the very same
pair when the selection is collapsed) the absolute end point. -/
def saveOp (d : Doc) (s : Sel) : Sel :=
  let st := absPoint d s.start s.startOfs
  let en := if s.collapsed then st else absPoint d s.endP s.endOfs
  { s with stack := en :: st :: s.stack }

/-- `container.removed` read off a saved absolute point; a container index
no longer in the tree counts as removed. -/
def containerRemoved (d : Doc) (ci : Nat) : Bool :=
  ((getContainer d ci).map fun c => c.removed).getD true

/-- `restore()` — pop the two saved absolute points; reading `removed` off a
`null` container throws (`none` result).  When either container was removed
the selection resets to `set(null, 0, null, 0)`; otherwise the points are
resolved through `relPoint` (the source's `absStart === absEnd` reference
test is taken structurally: when both pairs agree, the single-`setCursor`
branch and the `setStart`/`setEnd` branch compute the same state). -/
def restoreOp (d : Doc) (s : Sel) : Option Sel :=
  match s.stack with
  | [] => some s
  | [_] => none
  | absEnd :: absStart :: rest =>
    let s' := { s with stack := rest }
    match absStart.1, absEnd.1 with
    | some ci, some cj =>
      if containerRemoved d ci || containerRemoved d cj then
        some (setS d s' none 0 none 0)
      else if absStart = absEnd then
        let p := relPoint d absStart.1 absStart.2
        some (setCursorS d s' p.1 p.2)
      else
        let p := relPoint d absStart.1 absStart.2
        let q := relPoint d absEnd.1 absEnd.2
        some (setEndS d (setStartS d s' p.1 p.2) q.1 q.2)
    | _, _ => none

/-- `get reversed()` — false on an invalid selection; otherwise offset
comparison on a shared leaf, document-order comparison otherwise. -/
def Sel.reversed (s : Sel) : Bool :=
  match s.start, s.endP with
  | some a, some b => (a == b && s.endOfs < s.startOfs) || 0 < cmpAddr a b
  | _, _ => false

/-- `sort()` — swap the endpoints (by direct field assignment, leaving the
`modified` flag untouched) when the selection is reversed. -/
def sortOp (s : Sel) : Sel :=
  if s.reversed then
    { s with
      start := s.endP, endP := s.start
      startOfs := s.endOfs, endOfs := s.startOfs }
  else s

/-- The second phase of `trim()`: unless the (possibly already adjusted)
selection collapsed, push the start edge past a leaf seam when it sits at
the leaf's full length. -/
def trimStart (d : Doc) (s1 : Sel) : Sel :=
  if s1.collapsed then s1
  else
    let sLen : Int :=
      match s1.start with
      | some a => (leafLen d a : Int)
      | none => 0
    if s1.startOfs == sLen then
      match s1.start with
      | some a =>
        match nextTextCross d a with
        | some a' => setStartS d s1 (some a') 0
        | none => s1
      | none => s1
    else s1

/-- `trim()` — pull the end edge back past a leaf seam when it sits at
offset 0, stop if that collapsed the selection, then push the start edge
past a seam when it sits at the leaf's full length. -/
def trimOp (d : Doc) (s : Sel) : Sel :=
  if !s.valid then s
  else
    trimStart d
      (if s.endOfs == 0 then
        match s.endP with
        | some e =>
          match prevText d e with
          | some e' => setEndS d s (some e') (-1)
          | none => s
        | none => s
      else s)

/-! ## `wordWrap` and the word-boundary scan -/

/-- JavaScript word-character class (`\w`): letters, digits, underscore. -/
def isWordChar (c : Char) : Bool :=
  c.isAlpha || c.isDigit || c == '_'

/-- Word-character test at a (possibly out-of-range) position. -/
def wordAt (v : List Char) (i : Int) : Bool :=
  if i < 0 then false
  else ((v[i.toNat]?).map isWordChar).getD false

/-- The offsets matched by the `/\b/g` scan: every position where the
word-character class changes between the adjacent characters (string edges
count as non-word). -/
def boundaryOffsets (v : List Char) : List Nat :=
  (List.range (v.length + 1)).filter fun p =>
    wordAt v ((p : Int) - 1) != wordAt v (p : Int)

/-- `edges(value, index)` — fold the boundary offsets in ascending order,
keeping the greatest boundary at or before `index` (starting from 0) and the
least boundary at or after it (starting from the value's length). -/
def edges (v : List Char) (index : Int) : Int × Int :=
  (boundaryOffsets v).foldl
    (fun ba p =>
      let before := if (p : Int) ≤ index && ba.1 < (p : Int) then (p : Int) else ba.1
      let after := if index ≤ (p : Int) && (p : Int) < ba.2 then (p : Int) else ba.2
      (before, after))
    (0, (v.length : Int))

/-- `wordWrap()` — expand a collapsed cursor to the surrounding word; expand
each end of a range independently (by direct offset assignment + `mark`). -/
def wordWrapOp (d : Doc) (s : Sel) : Sel :=
  if !s.valid then s
  else
    match s.start with
    | none => s
    | some a =>
      let value := ((getLeaf d a).map fun lf => lf.value).getD []
      let e := edges value s.startOfs
      if s.collapsed then setS d s (some a) e.1 (some a) e.2
      else
        match s.endP with
        | none => s
        | some b =>
          let valueEnd := ((getLeaf d b).map fun lf => lf.value).getD []
          let e2 := edges valueEnd s.endOfs
          Sel.mark { s with startOfs := e.1, endOfs := e2.2 } true

/-! ## Host synchronization (`query` / `apply`)

Modelled from the spec: the host boundary "reads the active native selection
range and element identifiers".  A host point is already expressed as the
identifier (= address) of the leaf element the DOM walk resolves plus a
character offset; exceptions can only be raised by the two native calls
`getSelection()` / `getRangeAt()`, both of which happen before any selection
state is touched, so a host read is one of: a raised exception, no range, a
collapsed range, or a full range. -/
inductive Host
  | fail
  | noRange
  | collapsedAt (p : Addr × Int)
  | rangeAt (sp ep : Addr × Int)
deriving DecidableEq, Repr

/-- `fromDom(node, offset)` (modelled): resolve a host point against the tree
by identifier — `[null, 0]` when the identifier matches no text/link node,
and a zeroed offset on an empty node. -/
def fromDom (d : Doc) (p : Addr × Int) : Option Addr × Int :=
  match getLeaf d p.1 with
  | none => (none, 0)
  | some lf => (some p.1, if lf.value.isEmpty then 0 else p.2)

/-- `query(from)` — `null` when the host document is null; otherwise map the
host range inside a `try` (an exception leaves the state as it was), the
absent-range case resetting to `setCursor(undefined, 0)`; finally clear the
`modified` flag.  The `none` result is the source's `return null`. -/
def queryOp (d : Doc) (s : Sel) (from? : Option Host) : Option Sel :=
  match from? with
  | none => none
  | some h =>
    let s' :=
      match h with
      | Host.fail => s
      | Host.noRange => setCursorS d s none 0
      | Host.collapsedAt p =>
        let r := fromDom d p
        setCursorS d s r.1 r.2
      | Host.rangeAt sp ep =>
        let r1 := fromDom d sp
        let r2 := fromDom d ep
        sortOp (setEndS d (setStartS d s r1.1 r1.2) r2.1 r2.2)
    some (Sel.mark s' false)

/-- `apply(to)` — no-op on a null host or invalid selection; otherwise the
native range is written (an external effect) with exceptions swallowed, and
the `modified` flag cleared. -/
def applyOp (s : Sel) (to? : Option Host) : Sel :=
  if to?.isNone || !s.valid then s
  else Sel.mark s false

/-! ## Tree mutation primitives (modelled from the spec's interface contract) -/

/-- `node.insert(char, ofs)` — splice characters into the value at `ofs`. -/
def leafInsert (d : Doc) (a : Addr) (cs : List Char) (ofs : Int) : Doc :=
  modifyLeaf d a fun lf =>
    { lf with value := lf.value.take ofs.toNat ++ cs ++ lf.value.drop ofs.toNat }

/-- `node.extract(start, end)` — remove the substring `[start, end)`. -/
def leafExtract (d : Doc) (a : Addr) (i j : Int) : Doc :=
  modifyLeaf d a fun lf =>
    { lf with value := lf.value.take i.toNat ++ lf.value.drop j.toNat }

/-- `node.cut(start[, end])` — keep only `[start, end)` (end of value when the
second offset is omitted). -/
def leafCut (d : Doc) (a : Addr) (i : Int) (j : Option Int) : Doc :=
  modifyLeaf d a fun lf =>
    { lf with
      value :=
        (match j with
         | none => lf.value
         | some j => lf.value.take j.toNat).drop i.toNat }

/-- Remove the leaf at `a` from its container. -/
def removeLeaf (d : Doc) (a : Addr) : Doc :=
  modifyContainer d a.1 fun c =>
    { c with leaves := c.leaves.take a.2 ++ c.leaves.drop (a.2 + 1) }

/-- `node.merge(other)` — join the two boundary leaves into one, removing
every node in between; across containers this fuses the two containers
(remaining tail adopted by the first) and drops the containers in between. -/
def mergeLeaves (d : Doc) (a b : Addr) : Doc :=
  match getLeaf d a, getLeaf d b with
  | some la, some lb =>
    if cmpAddr b a ≤ 0 then d
    else
      let m := { la with value := la.value ++ lb.value }
      if a.1 = b.1 then
        modifyContainer d a.1 fun c =>
          { c with leaves := c.leaves.take a.2 ++ m :: c.leaves.drop (b.2 + 1) }
      else
        match getContainer d a.1, getContainer d b.1 with
        | some ca, some cb =>
          let fused :=
            { ca with leaves := ca.leaves.take a.2 ++ m :: cb.leaves.drop (b.2 + 1) }
          ⟨d.containers.take a.1 ++ fused :: d.containers.drop (b.1 + 1)⟩
        | _, _ => d
  | _, _ => d

/-- `node.join(other)` — absorb `other`'s text into this leaf and drop
`other` from the tree. -/
def joinLeafInto (d : Doc) (a n : Addr) : Doc :=
  let tail := ((getLeaf d n).map fun lf => lf.value).getD []
  removeLeaf (modifyLeaf d a fun lf => { lf with value := lf.value ++ tail }) n

/-- `node.split(ofs[, ofs2])` — cut the value at the offsets, replacing the
leaf by the non-empty outer pieces around the piece starting at the first
offset; returns the new document, the address of that piece, and the number
of extra leaves the container gained. -/
def leafSplit (d : Doc) (a : Addr) (i : Int) (j : Option Int) :
    Doc × Addr × Nat :=
  match getLeaf d a with
  | none => (d, a, 0)
  | some lf =>
    let jj : Int :=
      match j with
      | none => (lf.value.length : Int)
      | some j => j
    let left := lf.value.take i.toNat
    let mid := (lf.value.take jj.toNat).drop i.toNat
    let right := lf.value.drop jj.toNat
    let pieces :=
      (if left.isEmpty then [] else [{ lf with value := left }]) ++
        { lf with value := mid } ::
          (if right.isEmpty then [] else [{ lf with value := right }])
    let d' := modifyContainer d a.1 fun c =>
      { c with leaves := c.leaves.take a.2 ++ pieces ++ c.leaves.drop (a.2 + 1) }
    (d', (a.1, a.2 + (if left.isEmpty then 0 else 1)), pieces.length - 1)

/-- `node.break()` — split the owning container at the node: the node and
everything after it move into a fresh container of the same kind inserted
right after; returns the node's new address. -/
def nodeBreak (d : Doc) (a : Addr) : Doc × Addr :=
  match getContainer d a.1 with
  | none => (d, a)
  | some c =>
    let before := { c with leaves := c.leaves.take a.2 }
    let after := { c with leaves := c.leaves.drop a.2 }
    (⟨d.containers.take a.1 ++ before :: after :: d.containers.drop (a.1 + 1)⟩,
      (a.1 + 1, 0))

/-- `node.createTextNext(value, style)` — insert a fresh text leaf right
after the node; returns its address. -/
def createTextNext (d : Doc) (a : Addr) (v : List Char) (st : List TextStyle) :
    Doc × Addr :=
  (modifyContainer d a.1 fun c =>
      { c with
        leaves := c.leaves.take (a.2 + 1) ++ mkText v st :: c.leaves.drop (a.2 + 1) },
    (a.1, a.2 + 1))

/-- `node.createTextPrev(value, style)` — insert a fresh text leaf right
before the node (which therefore shifts one slot to the right). -/
def createTextPrev (d : Doc) (a : Addr) (v : List Char) (st : List TextStyle) :
    Doc :=
  modifyContainer d a.1 fun c =>
    { c with leaves := c.leaves.take a.2 ++ mkText v st :: c.leaves.drop a.2 }

/-- `node.link(url | null)` — turn the leaf into a hyperlink run, or back
into plain text on `null`. -/
def leafSetLink (d : Doc) (a : Addr) (u : Option String) : Doc :=
  modifyLeaf d a fun lf =>
    match u with
    | some u => { lf with ntype := NType.link, url := u }
    | none => { lf with ntype := NType.text, url := "" }

/-- `node.format(styles)` — add the missing style flags. -/
def leafFormat (d : Doc) (a : Addr) (st : List TextStyle) : Doc :=
  modifyLeaf d a fun lf =>
    { lf with style := lf.style ++ st.filter fun x => !lf.style.contains x }

/-- `node.unformat(styles)` — drop the given style flags. -/
def leafUnformat (d : Doc) (a : Addr) (st : List TextStyle) : Doc :=
  modifyLeaf d a fun lf =>
    { lf with style := lf.style.filter fun x => !st.contains x }

/-- `node.style = styles` — replace the style flags. -/
def leafSetStyle (d : Doc) (a : Addr) (st : List TextStyle) : Doc :=
  modifyLeaf d a fun lf => { lf with style := st }

/-! ## Editing operations -/

/-- The shared tail of `delete()`: rebase an emptied start (end) boundary to
the previous (next) leaf by direct field assignment, remember the start
leaf's pre-merge length, merge, and place the cursor at the join point. -/
def deleteTail (d : Doc) (s : Sel) : Doc × Sel :=
  match s.start, s.endP with
  | some a0, some b0 =>
    let a := if leafEmpty d a0 then (prevTextSib a0).getD a0 else a0
    let b := if leafEmpty d b0 then (nextTextSib d b0).getD b0 else b0
    let ofs : Int := (leafLen d a : Int)
    let d' := mergeLeaves d a b
    (d', setCursorS d' { s with start := some a, endP := some b } (some a) ofs)
  | _, _ => (d, s)

/-- `delete()` — no-op on an invalid selection; extract within a single leaf
(collapsing there if text remains), truncate both boundary leaves otherwise,
then run the shared rebase-and-merge tail. -/
def deleteOp (d : Doc) (s : Sel) : Doc × Sel :=
  if !s.valid then (d, s)
  else
    match s.start, s.endP with
    | some a, some b =>
      if s.start == s.endP then
        let d1 := leafExtract d a s.startOfs s.endOfs
        if !leafEmpty d1 a then (d1, collapseS d1 s)
        else deleteTail d1 s
      else
        let d1 := leafCut d a 0 (some s.startOfs)
        let d2 := leafCut d1 b s.endOfs none
        deleteTail d2 s
    | _, _ => (d, s)

/-- `insert(char)` — no-op on an invalid selection; delete a non-collapsed
selection first; when the cursor sits on the trailing edge of a link, re-home
it to the following text node (creating one when none follows); insert the
characters at the offset and advance the cursor by their count. -/
def insertOp (d : Doc) (s : Sel) (char : List Char) : Doc × Sel :=
  if !s.valid then (d, s)
  else
    let ds := if !s.collapsed then deleteOp d s else (d, s)
    let d1 := ds.1
    let s1 := ds.2
    match s1.start with
    | none => (d1, s1)
    | some a =>
      let step : Doc × Sel :=
        if isLinkLeaf d1 a && s1.startOfs == (leafLen d1 a : Int) then
          match nextTextSib d1 a with
          | some nxt => (d1, setCursorS d1 s1 (some nxt) 0)
          | none =>
            let cr := createTextNext d1 a [] []
            (cr.1, setCursorS cr.1 s1 (some cr.2) 0)
        else (d1, s1)
      let d2 := step.1
      let s2 := step.2
      match s2.start with
      | none => (d2, s2)
      | some b =>
        let d3 := leafInsert d2 b char s2.startOfs
        (d3, moveOp d3 s2 (char.length : Int) none)

/-- `break(newline)` — no-op on an invalid selection; delete a non-collapsed
selection; insert a literal newline when forced or strictly inside a link;
otherwise pad the container's edges with empty texts as needed, re-home the
cursor past a trailing seam and split the tree at the cursor into a fresh
container, the cursor landing at its first leaf's offset 0. -/
def breakOp (d : Doc) (s : Sel) (newline : Bool) : Doc × Sel :=
  if !s.valid then (d, s)
  else
    let ds := if !s.collapsed then deleteOp d s else (d, s)
    let d1 := ds.1
    let s1 := ds.2
    match s1.start with
    | none => (d1, s1)
    | some a =>
      if newline || (isLinkLeaf d1 a && s1.startOfs < (leafLen d1 a : Int)) then
        let d2 := leafInsert d1 a ['\n'] s1.startOfs
        (d2, moveOp d2 s1 1 none)
      else
        -- `createTextPrev` shifts the start leaf one slot to the right
        let first := a.2 == 0
        let d2 := if first && s1.startOfs == 0 then
            createTextPrev d1 a []
              (((getLeaf d1 a).map fun lf => lf.style).getD [])
          else d1
        let a2 : Addr := if first && s1.startOfs == 0 then (a.1, a.2 + 1) else a
        let last :=
          match getContainer d2 a2.1 with
          | some c => a2.2 + 1 == c.leaves.length
          | none => false
        let d3 := if last && s1.startOfs == (leafLen d2 a2 : Int) then
            (createTextNext d2 a2 []
              (((getLeaf d2 a2).map fun lf => lf.style).getD [])).1
          else d2
        let s2 := { s1 with start := some a2, endP := some a2 }
        let s3 := if s2.startOfs == (leafLen d3 a2 : Int) then
            setCursorS d3 s2 (nextTextSib d3 a2) 0
          else s2
        match s3.start with
        | none => (d3, s3)
        | some a3 =>
          let sp := leafSplit d3 a3 s3.startOfs none
          let br := nodeBreak sp.1 sp.2.1
          (br.1, setCursorS br.1 s3 (some br.2) 0)

/-- `split()` — no-op on an invalid selection; cut the selection's edges at
leaf granularity: a single leaf is isolated into a whole middle piece, a
multi-leaf selection keeps the start leaf's tail and the end leaf's head. -/
def splitOp (d : Doc) (s : Sel) : Doc × Sel :=
  if !s.valid then (d, s)
  else
    match s.start, s.endP with
    | some a, some b =>
      if s.start == s.endP then
        let r := leafSplit d a s.startOfs (some s.endOfs)
        (r.1, setS r.1 s (some r.2.1) 0 (some r.2.1) (-1))
      else
        let r1 := leafSplit d a s.startOfs none
        let b' : Addr :=
          if b.1 == a.1 && a.2 < b.2 then (b.1, b.2 + r1.2.2) else b
        let r2 := leafSplit r1.1 b' 0 (some s.endOfs)
        (r2.1, setS r2.1 s (some r1.2.1) 0 (some r2.2.1) (-1))
    | _, _ => (d, s)

/-! ## Selection-wide traversal loops -/

/-- The loop body of `nodes(callbackfn)`: call back on each text node from the
current one while it does not pass the end node, stepping through
`nextText(true)` on the mutated tree.  Fuel bounds iteration; each step moves
strictly forward so `totalLeaves + 1` always suffices. -/
def nodesGo (e : Addr) (f : Doc → Addr → Doc) :
    Doc → Option Addr → Nat → Doc
  | d, _, 0 => d
  | d, none, _ + 1 => d
  | d, some n, fuel + 1 =>
    if cmpAddr n e ≤ 0 then
      let d' := f d n
      nodesGo e f d' (nextTextCross d' n) fuel
    else d

/-- `nodes(callbackfn)` — no-op on an invalid selection. -/
def nodesOp (d : Doc) (s : Sel) (f : Doc → Addr → Doc) : Doc :=
  if !s.valid then d
  else
    match s.start, s.endP with
    | some a, some b => nodesGo b f d (some a) (totalLeaves d + 1)
    | _, _ => d

/-- `container.lastChild().next()).container` — the container that owns the
node following this container's last child (modelled: the next container in
document order holding a leaf; wizdm containers always hold at least one
text node). -/
def nextContainerOf (d : Doc) (ci : Nat) : Option Nat :=
  match nextContainerLeaf d (ci + 1) with
  | some a => some a.1
  | none => none

/-- The loop body of `containers(callbackfn)`: call back on each container
from the start node's one while it compares before the end node. -/
def containersGo (e : Addr) (f : Doc → Nat → Doc) :
    Doc → Option Nat → Nat → Doc
  | d, _, 0 => d
  | d, none, _ + 1 => d
  | d, some ci, fuel + 1 =>
    if cmpContainerLeaf ci e < 0 then
      containersGo e f (f d ci) (nextContainerOf (f d ci) ci) fuel
    else d

/-- `containers(callbackfn)` — no-op on an invalid selection. -/
def containersOp (d : Doc) (s : Sel) (f : Doc → Nat → Doc) : Doc :=
  if !s.valid then d
  else
    match s.start, s.endP with
    | some a, some b =>
      containersGo b f d (some a.1) (d.containers.length + 1)
    | _, _ => d

/-! ## Defragmentation -/

/-- Two leaves share all attributes (style flags, node type, link target). -/
def sameAttrs (x y : Leaf) : Bool :=
  x.style == y.style && x.ntype == y.ntype && x.url == y.url

/-- Iteration body for `defragLeaves`; the fuel stays aligned with the list
length, so the merge scan always runs to completion. -/
def defragGo : Nat → List Leaf → List Leaf
  | 0, ls => ls
  | _ + 1, [] => []
  | _ + 1, [a] => [a]
  | fuel + 1, a :: b :: rest =>
    if sameAttrs a b then
      defragGo fuel ({ a with value := a.value ++ b.value } :: rest)
    else a :: defragGo fuel (b :: rest)

/-- Modelled from the spec: `container.defrag()` merges adjacent leaves
sharing identical attributes. -/
def defragLeaves (ls : List Leaf) : List Leaf :=
  defragGo ls.length ls

/-- `container.defrag()` applied at a container index. -/
def containerDefragAt (d : Doc) (ci : Nat) : Doc :=
  modifyContainer d ci fun c => { c with leaves := defragLeaves c.leaves }

/-- `defrag()` — save the selection, defrag every container it spans,
restore and re-trim.  The `none` result is the exception `restore` raises
when a saved absolute point has a `null` container. -/
def defragOp (d : Doc) (s : Sel) : Option (Doc × Sel) :=
  if !s.valid then some (d, s)
  else
    let s1 := saveOp d s
    let d1 := containersOp d s1 containerDefragAt
    match restoreOp d1 s1 with
    | none => none
    | some s2 => some (d1, trimOp d1 s2)

/-! ## Formatting, linking, indentation -/

/-- `format(style, remove)` — no-op on an invalid selection; word-wrap a
collapsed cursor, trim and split to leaf granularity, format or unformat
every node in the selection, then defragment. -/
def formatOp (d : Doc) (s : Sel) (style : List TextStyle) (remove : Bool) :
    Option (Doc × Sel) :=
  if !s.valid then some (d, s)
  else
    let s1 := if s.collapsed then wordWrapOp d s else s
    let s2 := trimOp d s1
    let r := splitOp d s2
    let d1 := nodesOp r.1 r.2 fun d a =>
      if remove then leafUnformat d a style else leafFormat d a style
    defragOp d1 r.2

/-- The style getter: the start node's style flags, `[]` when invalid. -/
def styleGet (d : Doc) (s : Sel) : List TextStyle :=
  if s.valid then
    match s.start with
    | some a => ((getLeaf d a).map fun lf => lf.style).getD []
    | none => []
  else []

/-- `toggleFormat(style)` — remove when the start node already has it. -/
def toggleFormatOp (d : Doc) (s : Sel) (style : TextStyle) :
    Option (Doc × Sel) :=
  let remove := (styleGet d s).any fun x => x == style
  formatOp d s [style] remove

/-- `unlink()` — no-op on an invalid selection; clear link status on every
node in the selection, then defragment. -/
def unlinkOp (d : Doc) (s : Sel) : Option (Doc × Sel) :=
  if !s.valid then some (d, s)
  else
    let d1 := nodesOp d s fun d a => leafSetLink d a none
    defragOp d1 s

/-- The join loop of `link(url)`: successively absorb the node after the
start leaf while it does not pass the end leaf, stopping once the end leaf
itself has been absorbed (the end address shifts left as nodes vanish). -/
def linkJoinLoop (a : Addr) : Doc → Addr → Nat → Doc
  | d, _, 0 => d
  | d, e, fuel + 1 =>
    match nextTextCross d a with
    | none => d
    | some n =>
      if cmpAddr n e ≤ 0 then
        let d' := joinLeafInto d a n
        if n = e then d'
        else
          let e' := if n.1 = e.1 && n.2 < e.2 then (e.1, e.2 - 1) else e
          linkJoinLoop a d' e' fuel
      else d

/-- `link(url)` — delegate to `unlink` on a falsy url; otherwise no-op on an
invalid selection; word-wrap a collapsed cursor, trim and split, join a
multi-leaf selection into the start leaf, convert it into a hyperlink run
and select the resulting leaf whole. -/
def linkOp (d : Doc) (s : Sel) (url : Option String) : Option (Doc × Sel) :=
  match url with
  | none => unlinkOp d s
  | some u =>
    if u.isEmpty then unlinkOp d s
    else if !s.valid then some (d, s)
    else
      let s1 := if s.collapsed then wordWrapOp d s else s
      let s2 := trimOp d s1
      let r := splitOp d s2
      let d1 := r.1
      let s3 := r.2
      let d2 :=
        if s3.multi then
          match s3.start, s3.endP with
          | some a, some b => linkJoinLoop a d1 b (totalLeaves d1 + 1)
          | _, _ => d1
        else d1
      match s3.start with
      | none => some (d2, s3)
      | some a =>
        let d3 := leafSetLink d2 a (some u)
        some (d3, setS d3 s3 (some a) 0 (some a) (-1))

/-- `EditableText.climb(...types)` (modelled): the nearest ancestor container
whose type is among the requested ones; in the flat model the chain is the
owning container then the document root (type `document`, never requested). -/
def climb (d : Doc) (a : Addr) (types : List String) : Option Nat :=
  match getContainer d a.1 with
  | none => none
  | some c => if types.contains c.ctype then some a.1 else none

/-- Modelled from the spec: `container.indent(type)` applies the requested
list/quote type and increases nesting. -/
def containerIndent (d : Doc) (ci : Nat) (t : String) : Doc :=
  modifyContainer d ci fun c => { c with ctype := t, level := c.level + 1 }

/-- Modelled from the spec: `container.unindent(type)` decreases indentation,
reverting to a plain item at the outermost level. -/
def containerUnindent (d : Doc) (ci : Nat) (_t : String) : Doc :=
  modifyContainer d ci fun c =>
    if 0 < c.level then { c with level := c.level - 1 }
    else { c with ctype := "item" }

/-- The container type at an index (`""` when absent). -/
def ctypeAt (d : Doc) (ci : Nat) : String :=
  ((getContainer d ci).map fun c => c.ctype).getD ""

/-- `unindent()` — the source reads `this.start.climb(...)` without a
validity guard first: on a null start the dereference throws (the `none`
result).  Otherwise: nothing happens without a blockquote/list ancestor;
with one, every container in the selection is unindented and the selection
marked. -/
def unindentOp (d : Doc) (s : Sel) : Option (Doc × Sel) :=
  match s.start with
  | none => none
  | some a =>
    match climb d a ["blockquote", "bulleted", "numbered"] with
    | none => some (d, s)
    | some ind =>
      let t := ctypeAt d ind
      let d1 := containersOp d s fun d ci => containerUnindent d ci t
      some (d1, Sel.mark s true)

/-- `indent()` — no-op on an invalid selection; requires a list ancestor,
then indents every container in the selection and marks. -/
def indentOp (d : Doc) (s : Sel) : Doc × Sel :=
  if !s.valid then (d, s)
  else
    match s.start with
    | none => (d, s)
    | some a =>
      match climb d a ["bulleted", "numbered"] with
      | none => (d, s)
      | some list =>
        let t := ctypeAt d list
        let d1 := containersOp d s fun d ci => containerIndent d ci t
        (d1, Sel.mark s true)

/-- `toggleList(type)` — no-op on an invalid selection; unindent an existing
list (stopping there when it already had the requested type); otherwise
apply the list type to every spanned container except table cells. -/
def toggleListOp (d : Doc) (s : Sel) (type : String) : Doc × Sel :=
  if !s.valid then (d, s)
  else
    match s.start with
    | none => (d, s)
    | some a =>
      let list := climb d a ["bulleted", "numbered"]
      let step : Doc × Bool :=
        match list with
        | some l =>
          let t := ctypeAt d l
          (containersOp d s fun d ci => containerUnindent d ci t, t == type)
        | none => (d, false)
      if step.2 then (step.1, Sel.mark s true)
      else
        let d2 := containersOp step.1 s fun d ci =>
          if ctypeAt d ci == "cell" then d else containerIndent d ci type
        (d2, Sel.mark s true)

/-- The wrap loop of `toggleQuote`: from the start's top-level ancestor,
indent each sibling block into a blockquote while it compares before the
end node. -/
def quoteWrapLoop (d : Doc) (e : Addr) : Nat → Nat → Doc
  | _, 0 => d
  | ci, fuel + 1 =>
    if cmpContainerLeaf ci e < 0 then
      let d' := containerIndent d ci "blockquote"
      quoteWrapLoop d' e (ci + 1) fuel
    else d

/-- `toggleQuote()` — no-op on an invalid selection; unindent an enclosing
blockquote, otherwise wrap the spanned top-level blocks in one. -/
def toggleQuoteOp (d : Doc) (s : Sel) : Doc × Sel :=
  if !s.valid then (d, s)
  else
    match s.start with
    | none => (d, s)
    | some a =>
      match climb d a ["blockquote"] with
      | some _ =>
        (containersOp d s fun d ci => containerUnindent d ci "blockquote",
          Sel.mark s true)
      | none =>
        match s.endP with
        | some b =>
          (quoteWrapLoop d b a.1 (d.containers.length + 1), Sel.mark s true)
        | none => (d, Sel.mark s true)

/-! ## Concrete documents and selections used by witnesses and
counterexamples -/

/-- The never-queried empty selection (both endpoints null). -/
def emptySel : Sel :=
  ⟨none, 0, none, 0, false, []⟩

/-- A collapsed cursor at the given leaf and offset. -/
def cursorAt (a : Addr) (o : Int) : Sel :=
  ⟨some a, o, some a, o, false, []⟩

/-- Two sibling containers: leaf "ab" in the first, leaf "cde" in the
second. -/
def dTwo : Doc :=
  ⟨[mkItem [mkText "ab".toList []], mkItem [mkText "cde".toList []]]⟩

/-- One container holding the two leaves "abc" and "de" (distinct styles, so
they never merge). -/
def dPair : Doc :=
  ⟨[mkItem [mkText "abc".toList [], mkText "de".toList ["bold"]]]⟩

/-- Two adjacent hyperlink leaves with different targets. -/
def dLinks : Doc :=
  ⟨[mkItem [mkLink "ab".toList [] "u1", mkLink "cd".toList [] "u2"]]⟩

/-- A link leaf followed by a plain text leaf (same container). -/
def dLinkText : Doc :=
  ⟨[mkItem [mkLink "ab".toList [] "u", mkText "cd".toList []]]⟩

/-- `dPair` with its only container flagged removed by the tree. -/
def dPairRemoved : Doc :=
  ⟨[⟨"item", "left", 0, true, [mkText "abc".toList [], mkText "de".toList ["bold"]]⟩]⟩

/-- A fragmented document: two containers, each holding two mergeable
leaves. -/
def dFrag : Doc :=
  ⟨[mkItem [mkText "ab".toList [], mkText "cd".toList []],
    mkItem [mkText "ef".toList [], mkText "gh".toList []]]⟩

/-! # Theorems -/

/-- C10: `query(from)` with a null host document returns `null` rather than
the selection instance, leaving the endpoints and the `modified` flag
untouched (the null guard precedes every state access); `apply`, by
contrast, returns the selection unchanged even on a null host. -/
theorem query_null_host_returns_null :
    (∀ d s, queryOp d s none = none) ∧ ∀ s, applyOp s none = s :=
  ⟨fun _ _ => rfl, fun _ => rfl⟩

/-- C3 (counterexample): an exception raised while reading the host range is
swallowed, but the selection does **not** reset to an empty cursor — the
endpoints stay exactly where they were (here the non-empty cursor at leaf
(0,0), offset 1); only the `modified` flag is cleared. -/
theorem query_exception_no_reset_cex :
    queryOp dTwo (cursorAt (0, 0) 1) (some Host.fail) =
        some ⟨some (0, 0), 1, some (0, 0), 1, false, []⟩ ∧
      some ((0, 0) : Addr) ≠ (none : Option Addr) := by
  decide

/-- C3 (amended): an exception raised while reading the host range is
swallowed (never propagated) and the selection keeps its current endpoints,
only clearing the `modified` flag; it is the absent-range case — not the
exception case — that resets to an empty cursor. -/
theorem query_exception_swallowed (d : Doc) (s : Sel) :
    queryOp d s (some Host.fail) = some (s.mark false) ∧
      (s.mark false).start = s.start ∧ (s.mark false).startOfs = s.startOfs ∧
      (s.mark false).endP = s.endP ∧ (s.mark false).endOfs = s.endOfs ∧
      (s.mark false).modified = false ∧
      ∃ t, queryOp d s (some Host.noRange) = some t ∧
        t.start = none ∧ t.endP = none := by
  refine ⟨rfl, rfl, rfl, rfl, rfl, ?_, ?_⟩
  · simp [Sel.mark]
  · exact ⟨_, rfl, rfl, rfl⟩

/-- C9: `link(url)` delegates to `unlink()` on every falsy url — `undefined`
(`none`) and the empty string alike — and on a concrete valid selection
`link('')`/`unlink` clears link status on the selected leaves (the two runs
collapse into one plain-text leaf) instead of producing an empty-target
hyperlink. -/
theorem link_falsy_delegates_to_unlink :
    (∀ d s, linkOp d s none = unlinkOp d s) ∧
      (∀ d s, linkOp d s (some "") = unlinkOp d s) ∧
      unlinkOp dLinkText ⟨some (0, 0), 0, some (0, 1), 2, false, []⟩ =
        some (⟨[mkItem [mkText "abcd".toList []]]⟩,
          ⟨some (0, 0), 0, some (0, 0), 4, true, []⟩) := by
  refine ⟨fun d s => rfl, fun d s => rfl, by decide⟩

/-- C2 (counterexample): with leaf A = "ab" and leaf B = "cde" in different
sibling containers, `move(+1)` from the cursor (A, A.length) = ((0,0), 2)
lands on (B, 0) — not (B, 1): the single moved unit is consumed by the
implicit boundary character. -/
theorem move_boundary_cex :
    (moveOp dTwo (cursorAt (0, 0) 2) 1 none).start = some (1, 0) ∧
      (moveOp dTwo (cursorAt (0, 0) 2) 1 none).startOfs = 0 ∧
      ((0 : Int) ≠ 1) := by
  decide

/-- C1: every guarded mutating operation is a no-op on the invalid (empty)
selection — but `unindent()` lacks the guard and dereferences the null
`start` (`this.start.climb(...)`), raising a TypeError (the `none` result)
instead of returning the selection unchanged. -/
theorem invalid_selection_unindent_throws :
    unindentOp dTwo emptySel = none ∧
      insertOp dTwo emptySel ['x'] = (dTwo, emptySel) ∧
      deleteOp dTwo emptySel = (dTwo, emptySel) ∧
      breakOp dTwo emptySel false = (dTwo, emptySel) ∧
      breakOp dTwo emptySel true = (dTwo, emptySel) ∧
      splitOp dTwo emptySel = (dTwo, emptySel) ∧
      formatOp dTwo emptySel ["bold"] false = some (dTwo, emptySel) ∧
      formatOp dTwo emptySel ["bold"] true = some (dTwo, emptySel) ∧
      linkOp dTwo emptySel (some "url") = some (dTwo, emptySel) ∧
      unlinkOp dTwo emptySel = some (dTwo, emptySel) ∧
      indentOp dTwo emptySel = (dTwo, emptySel) ∧
      toggleListOp dTwo emptySel "bulleted" = (dTwo, emptySel) ∧
      toggleQuoteOp dTwo emptySel = (dTwo, emptySel) := by
  decide

/-- C4 (counterexample): container ["abc", "de"], collapsed cursor on the
second leaf at offset 0; `save()` then `restore()` with no mutation in
between lands on the **first** leaf at offset 3 (the same absolute position,
a different endpoint), so the exact original endpoints are not reproduced. -/
theorem save_restore_seam_cex :
    restoreOp dPair (saveOp dPair (cursorAt (0, 1) 0)) =
        some ⟨some (0, 0), 3, some (0, 0), 3, true, []⟩ ∧
      (some ((0, 0) : Addr), (3 : Int)) ≠ (some ((0, 1) : Addr), (0 : Int)) := by
  decide

/-- C7 (counterexample): two adjacent hyperlink runs "ab" → u1 and "cd" → u2;
inserting "x" at the trailing edge of the first link re-homes the cursor to
the *next leaf* regardless of its type, so the character lands inside the
second **link** leaf (value "xcd", type `link`), not in a plain-text leaf. -/
theorem insert_link_edge_cex :
    insertOp dLinks (cursorAt (0, 0) 2) ['x'] =
        (⟨[mkItem [mkLink "ab".toList [] "u1", mkLink "xcd".toList [] "u2"]]⟩,
          ⟨some (0, 1), 1, some (0, 1), 1, true, []⟩) ∧
      (mkLink "xcd".toList [] "u2").ntype = NType.link := by
  decide

/-! ### Document-order comparison facts -/

theorem cmpAddr_self (a : Addr) : cmpAddr a a = 0 := by
  simp [cmpAddr]

theorem cmpAddr_flip (a b : Addr) (h : 0 < cmpAddr a b) : cmpAddr b a < 0 := by
  unfold cmpAddr at *
  split_ifs at * <;> omega

theorem cmpAddr_neg_of (a b : Addr) (hne : a ≠ b) (h : ¬0 < cmpAddr a b) :
    cmpAddr a b < 0 := by
  unfold cmpAddr at *
  split_ifs at * <;> first
    | omega
    | exact absurd (Prod.ext_iff.mpr ⟨by omega, by omega⟩) hne

/-- C5: when a saved absolute position's container has been removed from the
tree before `restore()`, the restored selection is empty (both endpoints
null, offsets zeroed) rather than a dangling reference. -/
theorem restore_removed_container_empties (d : Doc) (s : Sel)
    (ci cj : Nat) (x y : Int) (rest : List (Option Nat × Int))
    (hstack : s.stack = (some cj, y) :: (some ci, x) :: rest)
    (hrem : (containerRemoved d ci || containerRemoved d cj) = true) :
    ∃ s', restoreOp d s = some s' ∧ s'.start = none ∧ s'.endP = none ∧
      s'.startOfs = 0 ∧ s'.endOfs = 0 := by
  obtain ⟨st, so, en, eo, m, stk⟩ := s
  simp only at hstack
  subst hstack
  simp only [restoreOp, hrem, if_true]
  exact ⟨_, rfl, rfl, rfl, rfl, rfl⟩

/-- Witness for C5: save a cursor on `dPair`, flag its container removed,
then restore — the selection comes back empty. -/
theorem restore_removed_container_empties_witness :
    ∃ s', restoreOp dPairRemoved (saveOp dPair (cursorAt (0, 1) 0)) = some s' ∧
      s'.start = none ∧ s'.endP = none ∧ s'.startOfs = 0 ∧ s'.endOfs = 0 :=
  restore_removed_container_empties dPairRemoved _ 0 0 3 3 []
    (by decide) (by decide)

/-- C6: on every valid selection, after `sort()` the start endpoint precedes
or equals the end endpoint in document order, falling back to offset
comparison when both endpoints share the same leaf. -/
theorem sort_orders_endpoints (s : Sel) (h : s.valid = true) :
    ∃ a b, (sortOp s).start = some a ∧ (sortOp s).endP = some b ∧
      (cmpAddr a b < 0 ∨
        (a = b ∧ (sortOp s).startOfs ≤ (sortOp s).endOfs)) := by
  obtain ⟨st, so, en, eo, m, stk⟩ := s
  cases st with
  | none => simp [Sel.valid] at h
  | some a =>
    cases en with
    | none => simp [Sel.valid] at h
    | some b =>
      have hiff : Sel.reversed ⟨some a, so, some b, eo, m, stk⟩ = true ↔
          ((a = b ∧ eo < so) ∨ 0 < cmpAddr a b) := by
        simp [Sel.reversed]
      rcases Bool.eq_false_or_eq_true
          (Sel.reversed ⟨some a, so, some b, eo, m, stk⟩) with hr | hr
      · have hrev := hiff.mp hr
        have hsort : sortOp ⟨some a, so, some b, eo, m, stk⟩ =
            ⟨some b, eo, some a, so, m, stk⟩ := by
          simp [sortOp, hr]
        rw [hsort]
        refine ⟨b, a, rfl, rfl, ?_⟩
        rcases hrev with ⟨hab, hlt⟩ | hpos
        · exact Or.inr ⟨hab.symm, le_of_lt hlt⟩
        · exact Or.inl (cmpAddr_flip a b hpos)
      · have hsort : sortOp ⟨some a, so, some b, eo, m, stk⟩ =
            ⟨some a, so, some b, eo, m, stk⟩ := by
          simp [sortOp, hr]
        rw [hsort]
        refine ⟨a, b, rfl, rfl, ?_⟩
        have hnrev : ¬((a = b ∧ eo < so) ∨ 0 < cmpAddr a b) := fun hc => by
          rw [hiff.mpr hc] at hr
          exact absurd hr (by simp)
        push_neg at hnrev
        by_cases hab : a = b
        · exact Or.inr ⟨hab, hnrev.1 hab⟩
        · exact Or.inl (cmpAddr_neg_of a b hab (not_lt.mpr hnrev.2))

/-- Witness for C6: a concrete reversed selection gets swapped into document
order. -/
theorem sort_orders_endpoints_witness :
    Sel.valid ⟨some (1, 0), 0, some (0, 0), 2, false, []⟩ = true ∧
      ∃ a b,
        (sortOp ⟨some (1, 0), 0, some (0, 0), 2, false, []⟩).start = some a ∧
        (sortOp ⟨some (1, 0), 0, some (0, 0), 2, false, []⟩).endP = some b ∧
        (cmpAddr a b < 0 ∨
          (a = b ∧ (sortOp ⟨some (1, 0), 0, some (0, 0), 2, false, []⟩).startOfs ≤
            (sortOp ⟨some (1, 0), 0, some (0, 0), 2, false, []⟩).endOfs)) :=
  ⟨by decide, sort_orders_endpoints _ (by decide)⟩

/-! ### Traversal facts -/

theorem nextContainerLeafGo_spec (d : Doc) :
    ∀ fuel ci a, nextContainerLeafGo d ci fuel = some a → ci ≤ a.1 ∧ a.2 = 0 := by
  intro fuel
  induction fuel with
  | zero => intro ci a h; simp [nextContainerLeafGo] at h
  | succ n ih =>
    intro ci a h
    rw [nextContainerLeafGo] at h
    split at h
    · exact absurd h (by simp)
    · split at h
      · have := ih (ci + 1) a h
        exact ⟨by omega, this.2⟩
      · cases h
        exact ⟨Nat.le_refl _, rfl⟩

theorem nextContainerLeaf_spec (d : Doc) (ci : Nat) (a : Addr)
    (h : nextContainerLeaf d ci = some a) : ci ≤ a.1 ∧ a.2 = 0 :=
  nextContainerLeafGo_spec d _ ci a h

theorem leaves_le_totalLeaves (d : Doc) (ci : Nat) (c : Container)
    (hc : getContainer d ci = some c) : c.leaves.length ≤ totalLeaves d := by
  rw [getContainer] at hc
  have hmem : c ∈ d.containers := List.getElem?_mem hc
  exact List.single_le_sum (fun x _ => Nat.zero_le x) _
    (List.mem_map_of_mem _ hmem)

/-- C2 (amended): for leaf A last in its container and leaf B the first leaf
of the next populated container, `move(+1)` from the collapsed cursor
(A, A.length) yields the cursor (B, 0): the moved unit is consumed crossing
the container boundary, which acts as one implicit line-break character. -/
theorem move_plus_one_across_boundary (d : Doc) (ci li : Nat) (c : Container)
    (b : Addr)
    (hc : getContainer d ci = some c)
    (hlast : li + 1 = c.leaves.length)
    (hnext : nextContainerLeaf d (ci + 1) = some b) :
    moveOp d (cursorAt (ci, li) ((leafLen d (ci, li) : Int))) 1 none =
      ⟨some b, 0, some b, 0, true, []⟩ := by
  obtain ⟨hble, -⟩ := nextContainerLeaf_spec d (ci + 1) b hnext
  have hsib : siblings b (ci, li) = false := by
    simp only [siblings]
    exact beq_eq_false_iff_ne.mpr (by omega)
  have hT : 1 ≤ totalLeaves d := by
    have := leaves_le_totalLeaves d ci c hc
    omega
  have hnextT : nextTextCross d (ci, li) = some b := by
    simp only [nextTextCross, hc]
    rw [if_neg (by omega)]
    exact hnext
  have hback : movePointBack d (ci, li) ((leafLen d (ci, li) : Int) + 1)
      (totalLeaves d + 1) = ((ci, li), (leafLen d (ci, li) : Int) + 1) := by
    rw [movePointBack, if_neg (by omega)]
  have harith : ((leafLen d (ci, li) : Int) + 1 - 1) -
      (leafLen d (ci, li) : Int) = 0 := by ring
  have hfwd1 : movePointFwd d (ci, li) ((leafLen d (ci, li) : Int) + 1)
      (totalLeaves d + 1) = movePointFwd d b 0 (totalLeaves d) := by
    rw [movePointFwd, if_pos (by omega), hnextT]
    simp only [hsib, Bool.false_eq_true, if_false, harith]
  have hfuel : totalLeaves d = (totalLeaves d - 1) + 1 := by omega
  have hfwd2 : movePointFwd d b 0 (totalLeaves d) = (b, 0) := by
    rw [hfuel, movePointFwd, if_neg (by omega)]
  simp only [moveOp, movePoint, cursorAt]
  rw [hback]
  simp only
  rw [hfwd1, hfwd2]
  simp [setS, setStartS, setEndS]

/-- Witness for C2 (amended) on the concrete two-container document. -/
theorem move_plus_one_across_boundary_witness :
    getContainer dTwo 0 = some (mkItem [mkText "ab".toList []]) ∧
      (0 : Nat) + 1 = (mkItem [mkText "ab".toList []]).leaves.length ∧
      nextContainerLeaf dTwo 1 = some (1, 0) ∧
      moveOp dTwo (cursorAt (0, 0) ((leafLen dTwo (0, 0) : Int))) 1 none =
        ⟨some (1, 0), 0, some (1, 0), 0, true, []⟩ :=
  ⟨by decide, by decide, by decide,
    move_plus_one_across_boundary dTwo 0 0 (mkItem [mkText "ab".toList []])
      (1, 0) (by decide) (by decide) (by decide)⟩

/-! ### Absolute/relative point resolution facts -/

theorem sumLen_nil : sumLen [] = 0 := rfl

theorem sumLen_cons (x : Leaf) (xs : List Leaf) :
    sumLen (x :: xs) = x.value.length + sumLen xs := by
  simp [sumLen]

theorem relWalk_exact (ci : Nat) (ls : List Leaf) :
    ∀ (i0 li : Nat) (lf : Leaf) (ofs : Int), ls[li]? = some lf →
      0 ≤ ofs → ofs ≤ lf.value.length → (0 < ofs ∨ li = 0) →
      relWalk ci i0 ls ((sumLen (ls.take li) : Int) + ofs) =
        (some (ci, i0 + li), ofs) := by
  induction ls with
  | nil => intro i0 li lf ofs h; simp at h
  | cons hd t ih =>
    intro i0 li lf ofs hget h0 hle hseam
    cases li with
    | zero =>
      have hlf : hd = lf := by simpa using hget
      subst hlf
      rw [relWalk]
      rw [if_pos (by simpa [sumLen] using hle)]
      simp [sumLen]
    | succ n =>
      have hofs : 0 < ofs := hseam.resolve_right (by omega)
      have hget' : t[n]? = some lf := by simpa using hget
      have htake : ((hd :: t).take (n + 1)) = hd :: t.take n := by simp
      rw [htake, sumLen_cons, relWalk]
      rw [if_neg (by push_cast; omega)]
      have harith : ((((hd.value.length : Nat) + sumLen (t.take n) : Nat) : Int) + ofs) -
          (hd.value.length : Int) = (sumLen (t.take n) : Int) + ofs := by
        push_cast; ring
      rw [harith]
      have := ih (i0 + 1) n lf ofs hget' h0 hle (Or.inl hofs)
      rw [this]
      have : i0 + 1 + n = i0 + (n + 1) := by omega
      rw [this]

theorem absPoint_spec (d : Doc) (a : Addr) (lf : Leaf) (c : Container)
    (ofs : Int) (hc : getContainer d a.1 = some c)
    (hl : c.leaves[a.2]? = some lf) (hrem : lf.removed = false) :
    absPoint d (some a) ofs =
      (some a.1, (sumLen (c.leaves.take a.2) : Int) + ofs) := by
  have hleaf : getLeaf d a = some lf := by simp [getLeaf, hc, hl]
  simp [absPoint, hleaf, hrem, hc]

theorem relPoint_exact (d : Doc) (ci li : Nat) (c : Container) (lf : Leaf)
    (ofs : Int) (hc : getContainer d ci = some c)
    (hl : c.leaves[li]? = some lf) (h0 : 0 ≤ ofs)
    (hle : ofs ≤ lf.value.length) (hseam : 0 < ofs ∨ li = 0) :
    relPoint d (some ci) ((sumLen (c.leaves.take li) : Int) + ofs) =
      (some (ci, li), ofs) := by
  simp only [relPoint, hc]
  simpa using relWalk_exact ci c.leaves 0 li lf ofs hl h0 hle hseam

/-- C4 (amended): `save()` immediately followed by `restore()` with no
mutation in between reproduces the exact original endpoints whenever each
endpoint's offset is strictly positive or its leaf is its container's first
child; when a zero offset sits on an interior leaf seam, the restored
endpoint denotes the same absolute position rebased to an earlier sibling's
tail (see the counterexample). -/
theorem save_restore_roundtrip (d : Doc) (s : Sel) (a b : Addr)
    (ca cb : Container) (la lb : Leaf)
    (hsa : s.start = some a) (hsb : s.endP = some b)
    (hca : getContainer d a.1 = some ca) (hla : ca.leaves[a.2]? = some la)
    (hcb : getContainer d b.1 = some cb) (hlb : cb.leaves[b.2]? = some lb)
    (hremA : la.removed = false) (hremB : lb.removed = false)
    (hcra : containerRemoved d a.1 = false)
    (hcrb : containerRemoved d b.1 = false)
    (hso : 0 ≤ s.startOfs) (hsoLe : s.startOfs ≤ la.value.length)
    (heo : 0 ≤ s.endOfs) (heoLe : s.endOfs ≤ lb.value.length)
    (hseamA : 0 < s.startOfs ∨ a.2 = 0) (hseamB : 0 < s.endOfs ∨ b.2 = 0) :
    ∃ s', restoreOp d (saveOp d s) = some s' ∧
      s'.start = some a ∧ s'.startOfs = s.startOfs ∧
      s'.endP = some b ∧ s'.endOfs = s.endOfs := by
  obtain ⟨st0, so, en0, eo, m, stk⟩ := s
  simp only at hsa hsb hso hsoLe heo heoLe hseamA hseamB
  subst hsa
  subst hsb
  have hstA : absPoint d (some a) so =
      (some a.1, (sumLen (ca.leaves.take a.2) : Int) + so) :=
    absPoint_spec d a la ca so hca hla hremA
  have hstB : absPoint d (some b) eo =
      (some b.1, (sumLen (cb.leaves.take b.2) : Int) + eo) :=
    absPoint_spec d b lb cb eo hcb hlb hremB
  have hrelA : relPoint d (some a.1)
      ((sumLen (ca.leaves.take a.2) : Int) + so) = (some a, so) := by
    simpa using relPoint_exact d a.1 a.2 ca la so hca hla hso hsoLe hseamA
  have hrelB : relPoint d (some b.1)
      ((sumLen (cb.leaves.take b.2) : Int) + eo) = (some b, eo) := by
    simpa using relPoint_exact d b.1 b.2 cb lb eo hcb hlb heo heoLe hseamB
  rcases Bool.eq_false_or_eq_true
      (Sel.collapsed ⟨some a, so, some b, eo, m, stk⟩) with hcol | hcol
  · -- collapsed save: the start point is pushed twice
    have hab : a = b ∧ so = eo := by
      simpa [Sel.collapsed, Sel.single, Sel.valid] using hcol
    have hsave : saveOp d ⟨some a, so, some b, eo, m, stk⟩ =
        ⟨some a, so, some b, eo, m,
          ((some a.1, (sumLen (ca.leaves.take a.2) : Int) + so)) ::
            ((some a.1, (sumLen (ca.leaves.take a.2) : Int) + so)) :: stk⟩ := by
      simp [saveOp, hcol, hstA]
    rw [hsave]
    refine ⟨⟨some a, so, some a, so, true, stk⟩, ?_, rfl, rfl, ?_, ?_⟩
    · simp only [restoreOp, hcra, Bool.or_self, Bool.false_eq_true,
        if_false, if_pos rfl, hrelA, setCursorS, setS, setStartS, setEndS]
      rw [if_neg (not_lt.mpr hso)]
      simp
    · rw [hab.1]
    · rw [hab.2]
  · -- non-collapsed save: both absolute points are pushed independently
    have hsave : saveOp d ⟨some a, so, some b, eo, m, stk⟩ =
        ⟨some a, so, some b, eo, m,
          ((some b.1, (sumLen (cb.leaves.take b.2) : Int) + eo)) ::
            ((some a.1, (sumLen (ca.leaves.take a.2) : Int) + so)) :: stk⟩ := by
      simp [saveOp, hcol, hstA, hstB]
    rw [hsave]
    by_cases heq : ((some a.1, (sumLen (ca.leaves.take a.2) : Int) + so) :
          Option Nat × Int) =
        (some b.1, (sumLen (cb.leaves.take b.2) : Int) + eo)
    · have h1 : (some a.1 : Option Nat) = some b.1 := congrArg Prod.fst heq
      have h2 : (sumLen (ca.leaves.take a.2) : Int) + so =
          (sumLen (cb.leaves.take b.2) : Int) + eo := congrArg Prod.snd heq
      have hpq : ((some a : Option Addr), so) = ((some b : Option Addr), eo) := by
        rw [← hrelA, ← hrelB, h1, h2]
      have hab : a = b := by
        have := congrArg Prod.fst hpq
        simpa using this
      have hoeq : so = eo := congrArg Prod.snd hpq
      refine ⟨⟨some a, so, some a, so, true, stk⟩, ?_, rfl, rfl, ?_, ?_⟩
      · simp only [restoreOp, hcra, hcrb, Bool.or_self, Bool.false_eq_true,
          if_false, heq, if_true, hrelA, setCursorS, setS, setStartS, setEndS]
        rw [if_neg (not_lt.mpr hso)]
      · rw [hab]
      · rw [hoeq]
    · refine ⟨⟨some a, so, some b, eo, true, stk⟩, ?_, rfl, rfl, rfl, rfl⟩
      simp only [restoreOp, hcra, hcrb, Bool.or_self, Bool.false_eq_true,
        if_false, heq, hrelA, hrelB, setStartS, setEndS]
      rw [if_neg (not_lt.mpr hso), if_neg (not_lt.mpr heo)]

/-! ### Leaf access/update facts -/

theorem getLeaf_decomp (d : Doc) (a : Addr) (lf : Leaf)
    (h : getLeaf d a = some lf) :
    ∃ c, getContainer d a.1 = some c ∧ c.leaves[a.2]? = some lf := by
  rw [getLeaf] at h
  cases hc : getContainer d a.1 with
  | none => rw [hc] at h; exact absurd h (by simp)
  | some c => rw [hc] at h; exact ⟨c, rfl, h⟩

theorem getContainer_modify_self (d : Doc) (ci : Nat) (f : Container → Container)
    (c : Container) (hc : getContainer d ci = some c) :
    getContainer (modifyContainer d ci f) ci = some (f c) := by
  rw [getContainer] at hc
  have hlt : ci < d.containers.length := (List.getElem?_eq_some_iff.mp hc).1
  simp [modifyContainer, getContainer, hc, List.getElem?_set_self hlt]

theorem getContainer_modify_ne (d : Doc) (ci j : Nat)
    (f : Container → Container) (hne : ci ≠ j) :
    getContainer (modifyContainer d ci f) j = getContainer d j := by
  rw [modifyContainer]
  cases hg : d.containers[ci]? with
  | none => rfl
  | some c => simp [getContainer, List.getElem?_set_ne hne]

theorem getLeaf_modifyLeaf_self (d : Doc) (a : Addr) (f : Leaf → Leaf)
    (lf : Leaf) (h : getLeaf d a = some lf) :
    getLeaf (modifyLeaf d a f) a = some (f lf) := by
  obtain ⟨c, hc, hl⟩ := getLeaf_decomp d a lf h
  have hlt : a.2 < c.leaves.length := (List.getElem?_eq_some_iff.mp hl).1
  rw [modifyLeaf]
  have := getContainer_modify_self d a.1
    (fun c =>
      match c.leaves[a.2]? with
      | none => c
      | some lf => { c with leaves := c.leaves.set a.2 (f lf) }) c hc
  rw [getLeaf, this]
  simp [hl, List.getElem?_set_self hlt]

theorem modifyContainer_none (d : Doc) (ci : Nat) (f : Container → Container)
    (hc : getContainer d ci = none) : modifyContainer d ci f = d := by
  rw [getContainer] at hc
  simp [modifyContainer, hc]

theorem getLeaf_modifyLeaf_ne (d : Doc) (a x : Addr) (f : Leaf → Leaf)
    (hne : a ≠ x) : getLeaf (modifyLeaf d a f) x = getLeaf d x := by
  by_cases hc1 : a.1 = x.1
  · have hc2 : a.2 ≠ x.2 := fun h2 => hne (Prod.ext_iff.mpr ⟨hc1, h2⟩)
    cases hc : getContainer d a.1 with
    | none => rw [modifyLeaf, modifyContainer_none d a.1 _ hc]
    | some c =>
      rw [modifyLeaf]
      have hself := getContainer_modify_self d a.1
        (fun c =>
          match c.leaves[a.2]? with
          | none => c
          | some lf => { c with leaves := c.leaves.set a.2 (f lf) }) c hc
      rw [getLeaf, getLeaf, ← hc1, hself, hc]
      cases hl : c.leaves[a.2]? with
      | none => simp [hl]
      | some lf => simp [hl, List.getElem?_set_ne hc2]
  · rw [modifyLeaf, getLeaf, getLeaf, getContainer_modify_ne d a.1 x.1 _ hc1]

/-- Witness for C4 (amended): a cursor with a strictly positive offset
roundtrips exactly through save/restore on `dPair`. -/
theorem save_restore_roundtrip_witness :
    (0 : Int) ≤ (cursorAt (0, 0) 2).startOfs ∧
      ∃ s', restoreOp dPair (saveOp dPair (cursorAt (0, 0) 2)) = some s' ∧
        s'.start = some (0, 0) ∧ s'.startOfs = (cursorAt (0, 0) 2).startOfs ∧
        s'.endP = some (0, 0) ∧ s'.endOfs = (cursorAt (0, 0) 2).endOfs :=
  ⟨by decide,
    save_restore_roundtrip dPair (cursorAt (0, 0) 2) (0, 0) (0, 0)
      (mkItem [mkText "abc".toList [], mkText "de".toList ["bold"]])
      (mkItem [mkText "abc".toList [], mkText "de".toList ["bold"]])
      (mkText "abc".toList []) (mkText "abc".toList [])
      rfl rfl (by decide) (by decide) (by decide) (by decide)
      (by decide) (by decide) (by decide) (by decide)
      (by decide) (by decide) (by decide) (by decide)
      (by decide) (by decide)⟩

/-- C7 (amended): for a valid collapsed cursor at the trailing edge of a
hyperlink leaf, `insert` re-homes the insertion into the following leaf of
the container — the existing next leaf if there is one, else a freshly
created empty plain-text leaf — prepending the characters there; the link
leaf itself is never extended, and the cursor ends up advanced by the
inserted length at the new leaf. -/
theorem insert_at_link_trailing_edge (d : Doc) (s : Sel) (a : Addr)
    (la : Leaf) (cs : List Char)
    (hsa : s.start = some a) (hsb : s.endP = some a)
    (hofs : s.startOfs = (leafLen d a : Int)) (hofs2 : s.endOfs = s.startOfs)
    (hla : getLeaf d a = some la) (hlink : la.ntype = NType.link) :
    (∀ n ln, nextTextSib d a = some n → getLeaf d n = some ln →
      ∃ d' s', insertOp d s cs = (d', s') ∧
        getLeaf d' n = some { ln with value := cs ++ ln.value } ∧
        getLeaf d' a = some la ∧
        s'.start = some n ∧ s'.startOfs = (cs.length : Int) ∧
        s'.endP = some n ∧ s'.endOfs = (cs.length : Int)) ∧
    (nextTextSib d a = none →
      ∃ d' s', insertOp d s cs = (d', s') ∧
        getLeaf d' (a.1, a.2 + 1) = some (mkText cs []) ∧
        getLeaf d' a = some la ∧
        s'.start = some (a.1, a.2 + 1) ∧ s'.startOfs = (cs.length : Int) ∧
        s'.endP = some (a.1, a.2 + 1) ∧ s'.endOfs = (cs.length : Int)) := by
  obtain ⟨st0, so, en0, eo, m, stk⟩ := s
  simp only at hsa hsb hofs hofs2
  subst hsa
  subst hsb
  subst hofs2
  subst hofs
  have hcol : Sel.collapsed
      ⟨some a, (leafLen d a : Int), some a, (leafLen d a : Int), m, stk⟩ =
        true := by
    simp [Sel.collapsed, Sel.single, Sel.valid]
  have hlinkb : isLinkLeaf d a = true := by
    simp [isLinkLeaf, hla, hlink]
  constructor
  · intro n ln hn hln
    have hnspec : n = (a.1, a.2 + 1) := by
      rw [nextTextSib] at hn
      split at hn
      · exact absurd hn (by simp)
      · split at hn
        · cases hn; rfl
        · exact absurd hn (by simp)
    have hne : a ≠ n := by
      rw [hnspec]
      intro heq
      have h2 := congrArg Prod.snd heq
      simp only at h2
      omega
    have hd3 : getLeaf (leafInsert d n cs 0) n =
        some { ln with value := cs ++ ln.value } := by
      rw [leafInsert]
      have := getLeaf_modifyLeaf_self d n
        (fun lf =>
          { lf with
            value := lf.value.take (0 : Int).toNat ++ cs ++
              lf.value.drop (0 : Int).toNat }) ln hln
      simpa using this
    have hd3a : getLeaf (leafInsert d n cs 0) a = some la := by
      rw [leafInsert, getLeaf_modifyLeaf_ne d n a _ (fun h => hne h.symm)]
      exact hla
    refine ⟨leafInsert d n cs 0,
      ⟨some n, (cs.length : Int), some n, (cs.length : Int), true, stk⟩,
      ?_, hd3, hd3a, rfl, rfl, rfl, rfl⟩
    have hnneg : ¬((cs.length : Int) < 0) := by omega
    have hlen3 : leafLen (leafInsert d n cs 0) n =
        cs.length + ln.value.length := by
      simp [leafLen, hd3]
    have hcond : ¬((leafLen (leafInsert d n cs 0) n : Int) <
        (cs.length : Int)) := by
      rw [hlen3]; push_cast; omega
    simp [insertOp, Sel.valid, hcol, hlinkb, hn, setCursorS, setS, setStartS,
      setEndS, moveOp, movePoint, movePointBack, movePointFwd, hnneg, hcond]
  · intro hn
    rcases getLeaf_decomp d a la hla with ⟨c, hc, hl⟩
    have halt : a.2 < c.leaves.length := (List.getElem?_eq_some_iff.mp hl).1
    have hlen : a.2 + 1 = c.leaves.length := by
      rw [nextTextSib, hc] at hn
      simp only at hn
      split at hn
      · exact absurd hn (by simp)
      · rename_i hlt
        omega
    have hne2 : ((a.1, a.2 + 1) : Addr) ≠ a := by
      intro heq
      have h2 := congrArg Prod.snd heq
      simp only at h2
      omega
    have hc2 : getContainer (createTextNext d a [] []).1 a.1 =
        some { c with leaves := c.leaves ++ [mkText [] []] } := by
      have h := getContainer_modify_self d a.1
        (fun c => { c with
          leaves := c.leaves.take (a.2 + 1) ++
            mkText [] [] :: c.leaves.drop (a.2 + 1) }) c hc
      rw [createTextNext]
      simp only at h ⊢
      rw [h, hlen]
      simp
    have hnn : getLeaf (createTextNext d a [] []).1 (a.1, a.2 + 1) =
        some (mkText [] []) := by
      simp only [getLeaf, hc2, Option.some_bind]
      rw [hlen]
      exact List.getElem?_concat_length _ _
    have hna : getLeaf (createTextNext d a [] []).1 a = some la := by
      simp only [getLeaf, hc2, Option.some_bind]
      rw [List.getElem?_append_left halt]
      exact hl
    have hd3 : getLeaf
        (leafInsert (createTextNext d a [] []).1 (a.1, a.2 + 1) cs 0)
        (a.1, a.2 + 1) = some (mkText cs []) := by
      rw [leafInsert]
      have := getLeaf_modifyLeaf_self (createTextNext d a [] []).1
        (a.1, a.2 + 1)
        (fun lf =>
          { lf with
            value := lf.value.take (0 : Int).toNat ++ cs ++
              lf.value.drop (0 : Int).toNat }) (mkText [] []) hnn
      simpa [mkText] using this
    have hd3a : getLeaf
        (leafInsert (createTextNext d a [] []).1 (a.1, a.2 + 1) cs 0) a =
          some la := by
      rw [leafInsert, getLeaf_modifyLeaf_ne _ _ _ _ hne2]
      exact hna
    refine ⟨leafInsert (createTextNext d a [] []).1 (a.1, a.2 + 1) cs 0,
      ⟨some (a.1, a.2 + 1), (cs.length : Int), some (a.1, a.2 + 1),
        (cs.length : Int), true, stk⟩,
      ?_, hd3, hd3a, rfl, rfl, rfl, rfl⟩
    have hnneg : ¬((cs.length : Int) < 0) := by omega
    have hlen3 : leafLen
        (leafInsert (createTextNext d a [] []).1 (a.1, a.2 + 1) cs 0)
        (a.1, a.2 + 1) = cs.length := by
      simp [leafLen, hd3, mkText]
    have hcond : ¬((leafLen
        (leafInsert (createTextNext d a [] []).1 (a.1, a.2 + 1) cs 0)
        (a.1, a.2 + 1) : Int) < (cs.length : Int)) := by
      rw [hlen3]; omega
    have hcondN : ¬(leafLen
        (leafInsert (createTextNext d a [] []).1 (a.1, a.2 + 1) cs 0)
        (a.1, a.2 + 1) < cs.length) := by
      rw [hlen3]; omega
    have hsnd : (createTextNext d a [] []).2 = (a.1, a.2 + 1) := rfl
    simp [insertOp, Sel.valid, hcol, hlinkb, hn, setCursorS, setS, setStartS,
      setEndS, moveOp, movePoint, movePointBack, movePointFwd, hnneg, hcond,
      hcondN, hsnd, hlen3]

/-- Witness for C7 (amended): inserting "x" at the trailing edge of the
first link of `dLinks` prepends it to the following leaf. -/
theorem insert_at_link_trailing_edge_witness :
    (cursorAt (0, 0) 2).startOfs = (leafLen dLinks (0, 0) : Int) ∧
      (mkLink "ab".toList [] "u1").ntype = NType.link ∧
      ∃ d' s', insertOp dLinks (cursorAt (0, 0) 2) ['x'] = (d', s') ∧
        getLeaf d' (0, 1) =
          some { mkLink "cd".toList [] "u2" with
                   value := ['x'] ++ (mkLink "cd".toList [] "u2").value } ∧
        getLeaf d' (0, 0) = some (mkLink "ab".toList [] "u1") ∧
        s'.start = some (0, 1) ∧ s'.startOfs = ((['x'] : List Char).length : Int) ∧
        s'.endP = some (0, 1) ∧ s'.endOfs = ((['x'] : List Char).length : Int) :=
  ⟨by decide, by decide,
    (insert_at_link_trailing_edge dLinks (cursorAt (0, 0) 2) (0, 0)
        (mkLink "ab".toList [] "u1") ['x'] rfl rfl (by decide) rfl
        (by decide) rfl).1 (0, 1) (mkLink "cd".toList [] "u2")
      (by decide) (by decide)⟩

/-! ### Defragmentation facts -/

theorem defragLeaves_nil : defragLeaves [] = [] := rfl

theorem defragLeaves_single (a : Leaf) : defragLeaves [a] = [a] := rfl

theorem defragLeaves_cons₂ (a b : Leaf) (rest : List Leaf) :
    defragLeaves (a :: b :: rest) =
      if sameAttrs a b then
        defragLeaves ({ a with value := a.value ++ b.value } :: rest)
      else a :: defragLeaves (b :: rest) := by
  show defragGo (rest.length + 1 + 1) (a :: b :: rest) = _
  rw [defragGo]
  rfl

/-- No two adjacent leaves share all attributes. -/
def NoAdj : List Leaf → Prop
  | [] => True
  | [_] => True
  | a :: b :: rest => sameAttrs a b = false ∧ NoAdj (b :: rest)

theorem sameAttrs_value (x b : Leaf) (v : List Char) :
    sameAttrs x { b with value := v } = sameAttrs x b := rfl

theorem defragLeaves_head :
    ∀ (n : Nat) (b : Leaf) (rest : List Leaf), rest.length = n →
      ∃ v t, defragLeaves (b :: rest) = { b with value := v } :: t := by
  intro n
  induction n using Nat.strong_induction_on with
  | _ n ih =>
    intro b rest hlen
    cases rest with
    | nil => exact ⟨b.value, [], by rw [defragLeaves_single]⟩
    | cons c t =>
      rw [defragLeaves_cons₂]
      by_cases hs : sameAttrs b c
      · rw [if_pos hs]
        obtain ⟨v, t', ht⟩ :=
          ih t.length (by simp at hlen; omega)
            { b with value := b.value ++ c.value } t rfl
        exact ⟨v, t', by rw [ht]⟩
      · rw [if_neg hs]
        exact ⟨b.value, _, rfl⟩

theorem noAdj_defragLeaves :
    ∀ (n : Nat) (ls : List Leaf), ls.length = n → NoAdj (defragLeaves ls) := by
  intro n
  induction n using Nat.strong_induction_on with
  | _ n ih =>
    intro ls hlen
    match ls with
    | [] => rw [defragLeaves_nil]; trivial
    | [a] => rw [defragLeaves_single]; trivial
    | a :: b :: rest =>
      rw [defragLeaves_cons₂]
      by_cases hs : sameAttrs a b
      · rw [if_pos hs]
        exact ih (rest.length + 1) (by simp at hlen; omega) _ (by simp)
      · rw [if_neg hs]
        have hs' : sameAttrs a b = false := by simpa using hs
        obtain ⟨v, t, ht⟩ := defragLeaves_head rest.length b rest rfl
        have hrest : NoAdj (defragLeaves (b :: rest)) :=
          ih (rest.length + 1) (by simp at hlen; omega) (b :: rest) (by simp)
        rw [ht] at hrest ⊢
        exact ⟨by rw [sameAttrs_value]; exact hs', hrest⟩

theorem defragLeaves_of_noAdj : ∀ ls : List Leaf, NoAdj ls →
    defragLeaves ls = ls := by
  intro ls
  induction ls with
  | nil => intro _; rfl
  | cons a t ih =>
    intro h
    cases t with
    | nil => rfl
    | cons b rest =>
      rw [defragLeaves_cons₂]
      obtain ⟨hs, ht⟩ := h
      rw [if_neg (by simp [hs]), ih ht]

theorem defragLeaves_idem (ls : List Leaf) :
    defragLeaves (defragLeaves ls) = defragLeaves ls :=
  defragLeaves_of_noAdj _ (noAdj_defragLeaves _ _ rfl)

theorem sumLen_defragLeaves :
    ∀ (n : Nat) (ls : List Leaf), ls.length = n →
      sumLen (defragLeaves ls) = sumLen ls := by
  intro n
  induction n using Nat.strong_induction_on with
  | _ n ih =>
    intro ls hlen
    match ls with
    | [] => rfl
    | [a] => rfl
    | a :: b :: rest =>
      rw [defragLeaves_cons₂]
      by_cases hs : sameAttrs a b
      · rw [if_pos hs]
        rw [ih (rest.length + 1) (by simp at hlen; omega) _ (by simp)]
        simp [sumLen_cons]
        omega
      · rw [if_neg hs, sumLen_cons, sumLen_cons,
          ih (rest.length + 1) (by simp at hlen; omega) (b :: rest) (by simp),
          sumLen_cons]

theorem defragLeaves_ne_nil (ls : List Leaf) (h : ls ≠ []) :
    defragLeaves ls ≠ [] := by
  cases ls with
  | nil => exact absurd rfl h
  | cons b rest =>
    obtain ⟨v, t, ht⟩ := defragLeaves_head rest.length b rest rfl
    rw [ht]
    simp

theorem defragLeaves_removed :
    ∀ (n : Nat) (ls : List Leaf), ls.length = n →
      (∀ lf ∈ ls, lf.removed = false) →
      ∀ lf ∈ defragLeaves ls, lf.removed = false := by
  intro n
  induction n using Nat.strong_induction_on with
  | _ n ih =>
    intro ls hlen hall
    match ls with
    | [] => rw [defragLeaves_nil]; exact hall
    | [a] => rw [defragLeaves_single]; exact hall
    | a :: b :: rest =>
      rw [defragLeaves_cons₂]
      by_cases hs : sameAttrs a b
      · rw [if_pos hs]
        refine ih (rest.length + 1) (by simp at hlen; omega) _ (by simp) ?_
        intro lf hlf
        rcases List.mem_cons.mp hlf with h | h
        · subst h
          exact hall a (by simp)
        · exact hall lf (by simp [h])
      · rw [if_neg hs]
        intro lf hlf
        rcases List.mem_cons.mp hlf with h | h
        · subst h
          exact hall lf (by simp)
        · refine ih (rest.length + 1) (by simp at hlen; omega) (b :: rest)
            (by simp) ?_ lf h
          intro x hx
          exact hall x (by simp [List.mem_cons.mp hx])

/-! ### Well-formed documents and the defrag loop -/

/-- The document invariant assumed by the engine: containers hold at least
one text node and nothing is flagged removed. -/
def WFdoc (d : Doc) : Prop :=
  ∀ c ∈ d.containers, c.leaves ≠ [] ∧ c.removed = false ∧
    ∀ lf ∈ c.leaves, lf.removed = false

/-- `container.defrag()` as a container transformer. -/
def defragC (c : Container) : Container :=
  { c with leaves := defragLeaves c.leaves }

theorem containerDefragAt_eq (d : Doc) (ci : Nat) :
    containerDefragAt d ci = modifyContainer d ci defragC := rfl

theorem modifyContainer_length (d : Doc) (ci : Nat) (f : Container → Container) :
    (modifyContainer d ci f).containers.length = d.containers.length := by
  rw [modifyContainer]
  cases d.containers[ci]? <;> simp

theorem getContainer_defragAt (d : Doc) (ci j : Nat) :
    getContainer (containerDefragAt d ci) j =
      if j = ci then (getContainer d j).map defragC else getContainer d j := by
  rw [containerDefragAt_eq]
  by_cases hj : j = ci
  · subst hj
    cases hc : getContainer d j with
    | none => rw [modifyContainer_none d j _ hc, hc]; simp
    | some c => rw [getContainer_modify_self d j _ c hc]; simp
  · rw [getContainer_modify_ne d ci j _ (fun h => hj h.symm), if_neg hj]

theorem WFdoc_defragAt (d : Doc) (ci : Nat) (hwf : WFdoc d) :
    WFdoc (containerDefragAt d ci) := by
  intro c' hc'
  obtain ⟨j, hj⟩ := List.getElem?_of_mem hc'
  have hj' : getContainer (containerDefragAt d ci) j = some c' := hj
  rw [getContainer_defragAt] at hj'
  by_cases hji : j = ci
  · rw [if_pos hji] at hj'
    cases hc : getContainer d j with
    | none => rw [hc] at hj'; exact absurd hj' (by simp)
    | some c =>
      rw [hc] at hj'
      have hcc : c' = defragC c := by simpa using hj'.symm
      have hmem : c ∈ d.containers := List.getElem?_mem hc
      obtain ⟨hne, hrem, hflags⟩ := hwf c hmem
      subst hcc
      exact ⟨defragLeaves_ne_nil _ hne, hrem,
        defragLeaves_removed _ _ rfl hflags⟩
  · rw [if_neg hji] at hj'
    exact hwf c' (List.getElem?_mem hj')

theorem nextContainerLeaf_wf (d : Doc) (hwf : WFdoc d) (ci : Nat)
    (hlt : ci < d.containers.length) :
    nextContainerLeaf d ci = some (ci, 0) := by
  have hfuel : d.containers.length + 1 - ci = (d.containers.length - ci) + 1 := by
    omega
  rw [nextContainerLeaf, hfuel, nextContainerLeafGo]
  cases hc : getContainer d ci with
  | none =>
    rw [getContainer] at hc
    rw [List.getElem?_eq_none_iff] at hc
    omega
  | some c =>
    have hne : c.leaves ≠ [] := (hwf c (List.getElem?_mem hc)).1
    simp [hne]

theorem nextContainerLeaf_oob (d : Doc) (ci : Nat)
    (h : d.containers.length ≤ ci) : nextContainerLeaf d ci = none := by
  rcases Nat.eq_or_lt_of_le h with heq | hlt
  · rw [nextContainerLeaf, show d.containers.length + 1 - ci = 1 by omega,
      nextContainerLeafGo]
    have hc : getContainer d ci = none := by
      rw [getContainer]
      exact List.getElem?_eq_none (by omega)
    rw [hc]
  · rw [nextContainerLeaf, show d.containers.length + 1 - ci = 0 by omega,
      nextContainerLeafGo]

theorem cmpContainerLeaf_neg_iff (ci : Nat) (e : Addr) :
    cmpContainerLeaf ci e < 0 ↔ ci ≤ e.1 := by
  unfold cmpContainerLeaf
  split_ifs with h
  · simpa using h
  · simpa using h

theorem containersGo_none (e : Addr) (f : Doc → Nat → Doc) (d : Doc) :
    ∀ fuel, containersGo e f d none fuel = d := by
  intro fuel
  cases fuel <;> rfl

theorem containersGo_defrag_pointwise :
    ∀ (fuel : Nat) (d : Doc) (ci : Nat) (e : Addr), WFdoc d →
      d.containers.length + 1 - ci ≤ fuel →
      ∀ j, getContainer (containersGo e containerDefragAt d (some ci) fuel) j =
        if ci ≤ j ∧ j ≤ e.1 then (getContainer d j).map defragC
        else getContainer d j := by
  intro fuel
  induction fuel with
  | zero =>
    intro d ci e hwf hf j
    rw [containersGo]
    by_cases hj : ci ≤ j ∧ j ≤ e.1
    · rw [if_pos hj]
      have : getContainer d j = none := by
        rw [getContainer]
        exact List.getElem?_eq_none (by omega)
      rw [this]
      rfl
    · rw [if_neg hj]
  | succ n ih =>
    intro d ci e hwf hf j
    rw [containersGo]
    by_cases hcl : cmpContainerLeaf ci e < 0
    · rw [if_pos hcl]
      have hcie : ci ≤ e.1 := (cmpContainerLeaf_neg_iff ci e).mp hcl
      by_cases hci : ci < d.containers.length
      · -- the container exists and is defragged; the loop moves to ci + 1
        have hwf' : WFdoc (containerDefragAt d ci) := WFdoc_defragAt d ci hwf
        have hlen' : (containerDefragAt d ci).containers.length =
            d.containers.length := by
          rw [containerDefragAt_eq]
          exact modifyContainer_length d ci defragC
        have hnco : nextContainerOf (containerDefragAt d ci) ci =
            if ci + 1 < d.containers.length then some (ci + 1) else none := by
          rw [nextContainerOf]
          by_cases hlt : ci + 1 < d.containers.length
          · rw [nextContainerLeaf_wf _ hwf' (ci + 1) (by omega), if_pos hlt]
          · rw [nextContainerLeaf_oob _ (ci + 1) (by omega), if_neg hlt]
        by_cases hlt : ci + 1 < d.containers.length
        · rw [hnco, if_pos hlt]
          have hrec := ih (containerDefragAt d ci) (ci + 1) e hwf'
            (by omega) j
          rw [hrec, getContainer_defragAt]
          by_cases hj : ci ≤ j ∧ j ≤ e.1
          · rw [if_pos hj]
            by_cases hj1 : j = ci
            · subst hj1
              rw [if_neg (by omega), if_pos rfl]
            · rw [if_pos ⟨by omega, hj.2⟩, if_neg hj1]
          · have hj1 : j ≠ ci := fun h => hj (by omega)
            rw [if_neg hj, if_neg (fun hc => hj ⟨by omega, hc.2⟩), if_neg hj1]
        · rw [hnco, if_neg hlt, containersGo_none, getContainer_defragAt]
          by_cases hj : ci ≤ j ∧ j ≤ e.1
          · rw [if_pos hj]
            by_cases hj1 : j = ci
            · subst hj1
              rw [if_pos rfl]
            · rw [if_neg hj1]
              have : getContainer d j = none := by
                rw [getContainer]
                exact List.getElem?_eq_none (by omega)
              rw [this]
              rfl
          · have hj1 : j ≠ ci := fun h => hj (by omega)
            rw [if_neg hj, if_neg hj1]
      · -- the loop index is already past the document: everything is
        -- unchanged and the interval only covers absent containers
        have hdn : getContainer d ci = none := by
          rw [getContainer]
          exact List.getElem?_eq_none (by omega)
        have hid : containerDefragAt d ci = d := by
          rw [containerDefragAt_eq]
          exact modifyContainer_none d ci defragC hdn
        rw [hid]
        have hnco : nextContainerOf d ci = none := by
          rw [nextContainerOf, nextContainerLeaf_oob d (ci + 1) (by omega)]
        rw [hnco, containersGo_none]
        by_cases hj : ci ≤ j ∧ j ≤ e.1
        · rw [if_pos hj]
          have : getContainer d j = none := by
            rw [getContainer]
            exact List.getElem?_eq_none (by omega)
          rw [this]
          rfl
        · rw [if_neg hj]
    · rw [if_neg hcl]
      have hcie : ¬ci ≤ e.1 := fun h =>
        hcl ((cmpContainerLeaf_neg_iff ci e).mpr h)
      rw [if_neg (fun hc => hcie (le_trans hc.1 hc.2))]

/-! ### Good endpoints and restore/trim landings -/

/-- A usable endpoint: the address denotes an attached (non-removed) leaf
and the offset is within its bounds. -/
def GoodPoint (d : Doc) (a : Addr) (ofs : Int) : Prop :=
  ∃ lf, getLeaf d a = some lf ∧ lf.removed = false ∧ 0 ≤ ofs ∧
    ofs ≤ lf.value.length

theorem WFdoc_leaf (d : Doc) (hwf : WFdoc d) (a : Addr) (lf : Leaf)
    (h : getLeaf d a = some lf) : lf.removed = false := by
  obtain ⟨c, hc, hl⟩ := getLeaf_decomp d a lf h
  exact (hwf c (List.getElem?_mem hc)).2.2 lf (List.getElem?_mem hl)

theorem sumLen_take_add_le (lf : Leaf) :
    ∀ (ls : List Leaf) (li : Nat), ls[li]? = some lf →
      sumLen (ls.take li) + lf.value.length ≤ sumLen ls := by
  intro ls
  induction ls with
  | nil => intro li h; simp at h
  | cons hd t ih =>
    intro li h
    cases li with
    | zero =>
      have : hd = lf := by simpa using h
      subst this
      simp [sumLen_cons, sumLen_nil]
    | succ n =>
      have h' : t[n]? = some lf := by simpa using h
      have := ih n h'
      simp only [List.take_succ_cons, sumLen_cons]
      omega

theorem relWalk_finds (ci : Nat) :
    ∀ (ls : List Leaf) (i0 : Nat) (ofs : Int), ls ≠ [] → 0 ≤ ofs →
      ofs ≤ sumLen ls →
      ∃ k o lf, relWalk ci i0 ls ofs = (some (ci, i0 + k), o) ∧
        ls[k]? = some lf ∧ 0 ≤ o ∧ o ≤ lf.value.length := by
  intro ls
  induction ls with
  | nil => intro i0 ofs h; exact absurd rfl h
  | cons hd t ih =>
    intro i0 ofs _ h0 hle
    rw [relWalk]
    by_cases hcase : ofs ≤ (hd.value.length : Int)
    · rw [if_pos hcase]
      exact ⟨0, ofs, hd, by simp, by simp, h0, hcase⟩
    · rw [if_neg hcase]
      rw [sumLen_cons] at hle
      push_cast at hle
      have htne : t ≠ [] := by
        intro ht
        subst ht
        have : sumLen ([] : List Leaf) = 0 := rfl
        rw [this] at hle
        omega
      obtain ⟨k, o, lf, hw, hget, ho0, hole⟩ :=
        ih (i0 + 1) (ofs - hd.value.length) htne (by omega) (by omega)
      have hidx : i0 + 1 + k = i0 + (k + 1) := by omega
      rw [hidx] at hw
      exact ⟨k + 1, o, lf, hw, by simpa using hget, ho0, hole⟩

theorem relPoint_good (d : Doc) (hwf : WFdoc d) (ci : Nat) (c : Container)
    (ofs : Int) (hc : getContainer d ci = some c)
    (h0 : 0 ≤ ofs) (hle : ofs ≤ sumLen c.leaves) :
    ∃ li o, relPoint d (some ci) ofs = (some (ci, li), o) ∧
      GoodPoint d (ci, li) o := by
  have hne : c.leaves ≠ [] := (hwf c (List.getElem?_mem hc)).1
  obtain ⟨k, o, lf, hw, hget, ho0, hole⟩ :=
    relWalk_finds ci c.leaves 0 ofs hne h0 hle
  have hleaf : getLeaf d (ci, k) = some lf := by simp [getLeaf, hc, hget]
  refine ⟨k, o, ?_, lf, hleaf, WFdoc_leaf d hwf _ lf hleaf, ho0, hole⟩
  simp only [relPoint, hc]
  simpa using hw

theorem Doc_ext (d1 d2 : Doc)
    (h : ∀ j, getContainer d1 j = getContainer d2 j) : d1 = d2 := by
  cases d1 with
  | mk c1 =>
    cases d2 with
    | mk c2 =>
      congr 1
      exact List.ext_getElem? h

/-! ### Traversal validity under the document invariant -/

theorem prevContainerLeaf_lt (d : Doc) :
    ∀ ci a, prevContainerLeaf d ci = some a → a.1 < ci := by
  intro ci
  induction ci with
  | zero => intro a h; simp [prevContainerLeaf] at h
  | succ n ih =>
    intro a h
    rw [prevContainerLeaf] at h
    split at h
    · have := ih a h
      omega
    · split at h
      · have := ih a h
        omega
      · cases h
        omega

theorem prevContainerLeaf_leaf (d : Doc) :
    ∀ ci a, prevContainerLeaf d ci = some a →
      ∃ lf, getLeaf d a = some lf := by
  intro ci
  induction ci with
  | zero => intro a h; simp [prevContainerLeaf] at h
  | succ n ih =>
    intro a h
    rw [prevContainerLeaf] at h
    split at h
    · exact ih a h
    · rename_i c hg
      split at h
      · exact ih a h
      · rename_i hne
        cases h
        have hpos : 0 < c.leaves.length := by
          cases hl : c.leaves with
          | nil => rw [hl] at hne; simp at hne
          | cons x t => simp [hl]
        refine ⟨c.leaves[c.leaves.length - 1], ?_⟩
        simp [getLeaf, hg]

theorem prevText_le (d : Doc) (a a' : Addr) (h : prevText d a = some a') :
    a'.1 ≤ a.1 := by
  rw [prevText] at h
  split at h
  · cases h
    exact Nat.le_refl _
  · exact Nat.le_of_lt (prevContainerLeaf_lt d a.1 a' h)

theorem prevText_leaf (d : Doc) (a a' : Addr) (lf : Leaf)
    (ha : getLeaf d a = some lf) (h : prevText d a = some a') :
    ∃ lf', getLeaf d a' = some lf' := by
  rw [prevText] at h
  split at h
  · cases h
    obtain ⟨c, hc, hl⟩ := getLeaf_decomp d a lf ha
    have hlt : a.2 < c.leaves.length := (List.getElem?_eq_some_iff.mp hl).1
    refine ⟨c.leaves[a.2 - 1], ?_⟩
    simp [getLeaf, hc]
  · exact prevContainerLeaf_leaf d a.1 a' h

theorem nextContainerLeafGo_leaf (d : Doc) :
    ∀ fuel ci a, nextContainerLeafGo d ci fuel = some a →
      ∃ lf, getLeaf d a = some lf := by
  intro fuel
  induction fuel with
  | zero => intro ci a h; simp [nextContainerLeafGo] at h
  | succ n ih =>
    intro ci a h
    rw [nextContainerLeafGo] at h
    split at h
    · exact absurd h (by simp)
    · rename_i c hg
      split at h
      · exact ih (ci + 1) a h
      · rename_i hne
        cases h
        have hpos : 0 < c.leaves.length := by
          cases hl : c.leaves with
          | nil => rw [hl] at hne; simp at hne
          | cons x t => simp [hl]
        refine ⟨c.leaves[0], ?_⟩
        simp [getLeaf, hg]

theorem nextTextCross_ge (d : Doc) (a a' : Addr)
    (h : nextTextCross d a = some a') : a.1 ≤ a'.1 := by
  rw [nextTextCross] at h
  split at h
  · exact absurd h (by simp)
  · split at h
    · cases h
      exact Nat.le_refl _
    · have := nextContainerLeafGo_spec d _ (a.1 + 1) a' h
      omega

theorem nextTextCross_leaf (d : Doc) (a a' : Addr)
    (h : nextTextCross d a = some a') :
    ∃ lf', getLeaf d a' = some lf' := by
  rw [nextTextCross] at h
  split at h
  · exact absurd h (by simp)
  · rename_i c hg
    split at h
    · rename_i hlt
      cases h
      refine ⟨c.leaves[a.2 + 1], ?_⟩
      simp [getLeaf, hg]
    · exact nextContainerLeafGo_leaf d _ (a.1 + 1) a' h

theorem restoreOp_spec (d : Doc) (hwf : WFdoc d) (s : Sel)
    (ci cj : Nat) (x y : Int) (rest : List (Option Nat × Int))
    (hstack : s.stack = (some cj, y) :: (some ci, x) :: rest)
    (cci ccj : Container)
    (hci : getContainer d ci = some cci) (hcj : getContainer d cj = some ccj)
    (hx0 : 0 ≤ x) (hxle : x ≤ sumLen cci.leaves)
    (hy0 : 0 ≤ y) (hyle : y ≤ sumLen ccj.leaves) :
    ∃ s', restoreOp d s = some s' ∧
      (∃ ka, s'.start = some (ci, ka) ∧ GoodPoint d (ci, ka) s'.startOfs) ∧
      (∃ kb, s'.endP = some (cj, kb) ∧ GoodPoint d (cj, kb) s'.endOfs) := by
  obtain ⟨st0, so, en0, eo, m, stk⟩ := s
  simp only at hstack
  subst hstack
  have hremci : containerRemoved d ci = false := by
    simp [containerRemoved, hci, (hwf cci (List.getElem?_mem hci)).2.1]
  have hremcj : containerRemoved d cj = false := by
    simp [containerRemoved, hcj, (hwf ccj (List.getElem?_mem hcj)).2.1]
  obtain ⟨ka, oa, hwa, hga⟩ := relPoint_good d hwf ci cci x hci hx0 hxle
  obtain ⟨kb, ob, hwb, hgb⟩ := relPoint_good d hwf cj ccj y hcj hy0 hyle
  have h0a : 0 ≤ oa := hga.choose_spec.2.2.1
  have h0b : 0 ≤ ob := hgb.choose_spec.2.2.1
  by_cases heq : ((some ci, x) : Option Nat × Int) = (some cj, y)
  · have hcij : ci = cj := by
      have := congrArg Prod.fst heq
      simpa using this
    have hxy : x = y := congrArg Prod.snd heq
    have hsame : ((some (cj, kb) : Option Addr), ob) = (some (ci, ka), oa) := by
      rw [← hwa, ← hwb, hcij, hxy]
    have hpair : ((cj, kb) : Addr) = (ci, ka) := by
      have h1 := congrArg Prod.fst hsame
      simpa using h1
    have hk : kb = ka := congrArg Prod.snd hpair
    have ho : ob = oa := congrArg Prod.snd hsame
    refine ⟨⟨some (ci, ka), oa, some (ci, ka), oa, true, rest⟩, ?_, ?_, ?_⟩
    · simp only [restoreOp, hremci, hremcj, Bool.or_self, Bool.false_eq_true,
        if_false, if_pos heq, hwa, setCursorS, setS, setStartS, setEndS]
      rw [if_neg (not_lt.mpr h0a)]
    · exact ⟨ka, rfl, hga⟩
    · exact ⟨ka, by rw [← hcij], by rw [← hcij]; exact hga⟩
  · refine ⟨⟨some (ci, ka), oa, some (cj, kb), ob, true, rest⟩, ?_, ?_, ?_⟩
    · simp only [restoreOp, hremci, hremcj, Bool.or_self, Bool.false_eq_true,
        if_false, if_neg heq, hwa, hwb, setStartS, setEndS]
      rw [if_neg (not_lt.mpr h0a), if_neg (not_lt.mpr h0b)]
    · exact ⟨ka, rfl, hga⟩
    · exact ⟨kb, rfl, hgb⟩

theorem trimStart_spec (d : Doc) (hwf : WFdoc d) (s : Sel) (a b : Addr)
    (hsa : s.start = some a) (hsb : s.endP = some b)
    (hga : GoodPoint d a s.startOfs) :
    ∃ a', (trimStart d s).start = some a' ∧ (trimStart d s).endP = some b ∧
      GoodPoint d a' (trimStart d s).startOfs ∧
      (trimStart d s).endOfs = s.endOfs ∧
      a.1 ≤ a'.1 := by
  obtain ⟨st0, so, en0, eo, m, stk⟩ := s
  simp only at hsa hsb hga
  subst hsa
  subst hsb
  simp only [trimStart]
  by_cases hcol : Sel.collapsed ⟨some a, so, some b, eo, m, stk⟩ = true
  · rw [if_pos hcol]
    exact ⟨a, rfl, rfl, hga, rfl, Nat.le_refl _⟩
  · rw [if_neg hcol]
    by_cases hlen : (so == (leafLen d a : Int)) = true
    · rw [if_pos hlen]
      cases hnx : nextTextCross d a with
      | none => exact ⟨a, rfl, rfl, hga, rfl, Nat.le_refl _⟩
      | some a1 =>
        obtain ⟨lf', hlf'⟩ := nextTextCross_leaf d a a1 hnx
        refine ⟨a1, by simp [setStartS], by simp [setStartS], ?_,
          by simp [setStartS], nextTextCross_ge d a a1 hnx⟩
        have hofs : (setStartS d ⟨some a, so, some b, eo, m, stk⟩
            (some a1) 0).startOfs = 0 := by
          simp [setStartS]
        rw [hofs]
        exact ⟨lf', hlf', WFdoc_leaf d hwf _ _ hlf', le_refl 0, by omega⟩
    · rw [if_neg hlen]
      exact ⟨a, rfl, rfl, hga, rfl, Nat.le_refl _⟩

theorem trimOp_spec (d : Doc) (hwf : WFdoc d) (s : Sel) (a b : Addr)
    (hsa : s.start = some a) (hsb : s.endP = some b)
    (hga : GoodPoint d a s.startOfs) (hgb : GoodPoint d b s.endOfs) :
    ∃ a' b', (trimOp d s).start = some a' ∧ (trimOp d s).endP = some b' ∧
      GoodPoint d a' (trimOp d s).startOfs ∧
      GoodPoint d b' (trimOp d s).endOfs ∧
      a.1 ≤ a'.1 ∧ b'.1 ≤ b.1 := by
  obtain ⟨st0, so, en0, eo, m, stk⟩ := s
  simp only at hsa hsb hga hgb
  subst hsa
  subst hsb
  have hval : (⟨some a, so, some b, eo, m, stk⟩ : Sel).valid = true := by
    simp [Sel.valid]
  simp only [trimOp, hval, Bool.not_true, Bool.false_eq_true, if_false]
  by_cases heo : (eo == (0 : Int)) = true
  · rw [if_pos heo]
    cases hpv : prevText d b with
    | none =>
      obtain ⟨a', h1, h2, h3, h4, h5⟩ :=
        trimStart_spec d hwf ⟨some a, so, some b, eo, m, stk⟩ a b rfl rfl hga
      exact ⟨a', b, h1, h2, h3, by rw [h4]; exact hgb, h5, Nat.le_refl _⟩
    | some b1 =>
      obtain ⟨lfb, hlfb, hrmb, hb0, hble⟩ := hgb
      obtain ⟨lf1, hlf1⟩ := prevText_leaf d b b1 lfb hlfb hpv
      have hset : setEndS d ⟨some a, so, some b, eo, m, stk⟩ (some b1) (-1) =
          ⟨some a, so, some b1, (leafLen d b1 : Int), true, stk⟩ := by
        simp [setEndS]
      simp only
      rw [hset]
      have hgb1 : GoodPoint d b1 ((leafLen d b1 : Int)) := by
        refine ⟨lf1, hlf1, WFdoc_leaf d hwf _ _ hlf1, by omega, ?_⟩
        simp [leafLen, hlf1]
      obtain ⟨a', h1, h2, h3, h4, h5⟩ :=
        trimStart_spec d hwf ⟨some a, so, some b1, (leafLen d b1 : Int),
          true, stk⟩ a b1 rfl rfl hga
      exact ⟨a', b1, h1, h2, h3, by rw [h4]; exact hgb1, h5,
        prevText_le d b b1 hpv⟩
  · rw [if_neg heo]
    obtain ⟨a', h1, h2, h3, h4, h5⟩ :=
      trimStart_spec d hwf ⟨some a, so, some b, eo, m, stk⟩ a b rfl rfl hga
    exact ⟨a', b, h1, h2, h3, by rw [h4]; exact hgb, h5, Nat.le_refl _⟩

theorem WFdoc_of_pointwise (d dd : Doc) (hwf : WFdoc d) (lo hi : Nat)
    (h : ∀ j, getContainer dd j =
      if lo ≤ j ∧ j ≤ hi then (getContainer d j).map defragC
      else getContainer d j) : WFdoc dd := by
  intro c' hc'
  obtain ⟨j, hj⟩ := List.getElem?_of_mem hc'
  have hj' : getContainer dd j = some c' := hj
  rw [h j] at hj'
  by_cases hcase : lo ≤ j ∧ j ≤ hi
  · rw [if_pos hcase] at hj'
    cases hc : getContainer d j with
    | none => rw [hc] at hj'; exact absurd hj' (by simp)
    | some c =>
      rw [hc] at hj'
      have hcc : c' = defragC c := by simpa using hj'.symm
      obtain ⟨hne, hrem, hflags⟩ := hwf c (List.getElem?_mem hc)
      subst hcc
      exact ⟨defragLeaves_ne_nil _ hne, hrem,
        defragLeaves_removed _ _ rfl hflags⟩
  · rw [if_neg hcase] at hj'
    exact hwf c' (List.getElem?_mem hj')

/-- One full run of `defrag()` on a well-formed document with good
endpoints: it succeeds, the resulting document is the containers() pass, and
the restored+trimmed selection has good endpoints that only shrink the
spanned container interval. -/
theorem defragOp_run (d : Doc) (hwf : WFdoc d) (s : Sel) (a b : Addr)
    (hsa : s.start = some a) (hsb : s.endP = some b)
    (hga : GoodPoint d a s.startOfs) (hgb : GoodPoint d b s.endOfs) :
    (∀ j, getContainer (containersOp d (saveOp d s) containerDefragAt) j =
      if a.1 ≤ j ∧ j ≤ b.1 then (getContainer d j).map defragC
      else getContainer d j) ∧
    ∃ s', defragOp d s =
        some (containersOp d (saveOp d s) containerDefragAt, s') ∧
      ∃ a' b', s'.start = some a' ∧ s'.endP = some b' ∧
        GoodPoint (containersOp d (saveOp d s) containerDefragAt) a'
          s'.startOfs ∧
        GoodPoint (containersOp d (saveOp d s) containerDefragAt) b'
          s'.endOfs ∧
        a.1 ≤ a'.1 ∧ b'.1 ≤ b.1 := by
  obtain ⟨la, hla, hremA, hso0, hsoLe⟩ := hga
  obtain ⟨lb, hlb, hremB, heo0, heoLe⟩ := hgb
  obtain ⟨ca, hcaC, hlaL⟩ := getLeaf_decomp d a la hla
  obtain ⟨cb, hcbC, hlbL⟩ := getLeaf_decomp d b lb hlb
  have hvalid : s.valid = true := by simp [Sel.valid, hsa, hsb]
  have hSv : (saveOp d s).valid = true := hvalid
  have hSa : (saveOp d s).start = some a := hsa
  have hSb : (saveOp d s).endP = some b := hsb
  have hDDpt : ∀ j,
      getContainer (containersOp d (saveOp d s) containerDefragAt) j =
        if a.1 ≤ j ∧ j ≤ b.1 then (getContainer d j).map defragC
        else getContainer d j := by
    intro j
    simp only [containersOp, hSv, hSa, hSb, Bool.not_true,
      Bool.false_eq_true, if_false]
    exact containersGo_defrag_pointwise (d.containers.length + 1) d a.1 b hwf
      (by omega) j
  refine ⟨hDDpt, ?_⟩
  have hwfDD : WFdoc (containersOp d (saveOp d s) containerDefragAt) :=
    WFdoc_of_pointwise d _ hwf a.1 b.1 hDDpt
  -- container contents at the endpoints' containers after the pass
  have hDDa : ∃ ca', getContainer
      (containersOp d (saveOp d s) containerDefragAt) a.1 = some ca' ∧
      sumLen ca'.leaves = sumLen ca.leaves := by
    rw [hDDpt a.1]
    by_cases hcase : a.1 ≤ a.1 ∧ a.1 ≤ b.1
    · rw [if_pos hcase, hcaC]
      refine ⟨defragC ca, rfl, ?_⟩
      simpa [defragC] using sumLen_defragLeaves ca.leaves.length ca.leaves rfl
    · rw [if_neg hcase, hcaC]
      exact ⟨ca, rfl, rfl⟩
  obtain ⟨ca', hca', hsumA⟩ := hDDa
  have hDDb : ∃ cb', getContainer
      (containersOp d (saveOp d s) containerDefragAt) b.1 = some cb' ∧
      sumLen cb'.leaves = sumLen cb.leaves := by
    rw [hDDpt b.1]
    by_cases hcase : a.1 ≤ b.1 ∧ b.1 ≤ b.1
    · rw [if_pos hcase, hcbC]
      refine ⟨defragC cb, rfl, ?_⟩
      simpa [defragC] using sumLen_defragLeaves cb.leaves.length cb.leaves rfl
    · rw [if_neg hcase, hcbC]
      exact ⟨cb, rfl, rfl⟩
  obtain ⟨cb', hcb', hsumB⟩ := hDDb
  -- the absolute points pushed by save()
  have hstA : absPoint d s.start s.startOfs =
      (some a.1, (sumLen (ca.leaves.take a.2) : Int) + s.startOfs) := by
    rw [hsa]
    exact absPoint_spec d a la ca s.startOfs hcaC hlaL hremA
  have hstB : absPoint d s.endP s.endOfs =
      (some b.1, (sumLen (cb.leaves.take b.2) : Int) + s.endOfs) := by
    rw [hsb]
    exact absPoint_spec d b lb cb s.endOfs hcbC hlbL hremB
  have hboundA1 : 0 ≤ (sumLen (ca.leaves.take a.2) : Int) + s.startOfs := by
    have : (0 : Int) ≤ (sumLen (ca.leaves.take a.2) : Int) := by omega
    omega
  have hboundA2 : (sumLen (ca.leaves.take a.2) : Int) + s.startOfs ≤
      sumLen ca'.leaves := by
    have htk := sumLen_take_add_le la ca.leaves a.2 hlaL
    rw [hsumA]
    omega
  have hboundB1 : 0 ≤ (sumLen (cb.leaves.take b.2) : Int) + s.endOfs := by
    have : (0 : Int) ≤ (sumLen (cb.leaves.take b.2) : Int) := by omega
    omega
  have hboundB2 : (sumLen (cb.leaves.take b.2) : Int) + s.endOfs ≤
      sumLen cb'.leaves := by
    have htk := sumLen_take_add_le lb cb.leaves b.2 hlbL
    rw [hsumB]
    omega
  -- the saved stack, depending on whether the selection was collapsed
  rcases Bool.eq_false_or_eq_true s.collapsed with hcol | hcol
  · -- collapsed: the same point is pushed twice (and a = b)
    have hab : a = b ∧ s.startOfs = s.endOfs := by
      have := hcol
      simp [Sel.collapsed, Sel.single, Sel.valid, hsa, hsb] at this
      exact this
    have hstack : (saveOp d s).stack =
        ((some a.1, (sumLen (ca.leaves.take a.2) : Int) + s.startOfs)) ::
          ((some a.1, (sumLen (ca.leaves.take a.2) : Int) + s.startOfs)) ::
            s.stack := by
      simp only [saveOp, hcol, if_true, hstA]
    obtain ⟨S2, hrest, ⟨ka, hS2a, hgS2a⟩, ⟨kb, hS2b, hgS2b⟩⟩ :=
      restoreOp_spec (containersOp d (saveOp d s) containerDefragAt) hwfDD
        (saveOp d s) a.1 a.1 _ _ s.stack hstack ca' ca' hca' hca'
        hboundA1 hboundA2 hboundA1 hboundA2
    obtain ⟨a3, b3, ht1, ht2, ht3, ht4, ht5, ht6⟩ :=
      trimOp_spec (containersOp d (saveOp d s) containerDefragAt) hwfDD S2
        (a.1, ka) (a.1, kb) hS2a hS2b hgS2a hgS2b
    refine ⟨trimOp (containersOp d (saveOp d s) containerDefragAt) S2,
      ?_, a3, b3, ht1, ht2, ht3, ht4, ht5, ?_⟩
    · simp only [defragOp, hvalid, Bool.not_true, Bool.false_eq_true,
        if_false]
      rw [hrest]
    · have hb1 : a.1 = b.1 := by rw [hab.1]
      have h6 : b3.1 ≤ a.1 := ht6
      omega
  · -- not collapsed: both absolute points are pushed
    have hstack : (saveOp d s).stack =
        ((some b.1, (sumLen (cb.leaves.take b.2) : Int) + s.endOfs)) ::
          ((some a.1, (sumLen (ca.leaves.take a.2) : Int) + s.startOfs)) ::
            s.stack := by
      simp only [saveOp, hcol, Bool.false_eq_true, if_false, hstA, hstB]
    obtain ⟨S2, hrest, ⟨ka, hS2a, hgS2a⟩, ⟨kb, hS2b, hgS2b⟩⟩ :=
      restoreOp_spec (containersOp d (saveOp d s) containerDefragAt) hwfDD
        (saveOp d s) a.1 b.1 _ _ s.stack hstack ca' cb' hca' hcb'
        hboundA1 hboundA2 hboundB1 hboundB2
    obtain ⟨a3, b3, ht1, ht2, ht3, ht4, ht5, ht6⟩ :=
      trimOp_spec (containersOp d (saveOp d s) containerDefragAt) hwfDD S2
        (a.1, ka) (b.1, kb) hS2a hS2b hgS2a hgS2b
    refine ⟨trimOp (containersOp d (saveOp d s) containerDefragAt) S2,
      ?_, a3, b3, ht1, ht2, ht3, ht4, ht5, ht6⟩
    simp only [defragOp, hvalid, Bool.not_true, Bool.false_eq_true, if_false]
    rw [hrest]

/-- C8: `defrag()` is idempotent: on a well-formed document with a valid
selection whose endpoints are attached and in bounds, applying `defrag()`
right after a successful `defrag()` leaves the document — its containers,
leaf count and leaf contents — exactly as the first application left it. -/
theorem defrag_idempotent (d : Doc) (s : Sel) (a b : Addr)
    (hsa : s.start = some a) (hsb : s.endP = some b)
    (hwf : WFdoc d)
    (hga : GoodPoint d a s.startOfs) (hgb : GoodPoint d b s.endOfs)
    (d1 : Doc) (s1 : Sel) (h1 : defragOp d s = some (d1, s1)) :
    ∃ s2, defragOp d1 s1 = some (d1, s2) := by
  obtain ⟨hDDpt, s', hrun, a', b', hs'a, hs'b, hg'a, hg'b, hle1, hle2⟩ :=
    defragOp_run d hwf s a b hsa hsb hga hgb
  rw [hrun] at h1
  have hpair : ((containersOp d (saveOp d s) containerDefragAt, s') :
      Doc × Sel) = (d1, s1) := Option.some.inj h1
  have hd1 : d1 = containersOp d (saveOp d s) containerDefragAt :=
    (congrArg Prod.fst hpair).symm
  have hs1 : s1 = s' := (congrArg Prod.snd hpair).symm
  subst hd1
  rw [hs1]
  have hwfDD : WFdoc (containersOp d (saveOp d s) containerDefragAt) :=
    WFdoc_of_pointwise d _ hwf a.1 b.1 hDDpt
  obtain ⟨hDD2pt, s'', hrun2, -⟩ :=
    defragOp_run (containersOp d (saveOp d s) containerDefragAt) hwfDD s'
      a' b' hs'a hs'b hg'a hg'b
  have hDD2eq : containersOp (containersOp d (saveOp d s) containerDefragAt)
      (saveOp (containersOp d (saveOp d s) containerDefragAt) s')
      containerDefragAt =
        containersOp d (saveOp d s) containerDefragAt := by
    apply Doc_ext
    intro j
    rw [hDD2pt j]
    by_cases hcase : a'.1 ≤ j ∧ j ≤ b'.1
    · rw [if_pos hcase]
      have hj : a.1 ≤ j ∧ j ≤ b.1 :=
        ⟨le_trans hle1 hcase.1, le_trans hcase.2 hle2⟩
      rw [hDDpt j, if_pos hj]
      cases hc : getContainer d j with
      | none => rfl
      | some c => simp [defragC, defragLeaves_idem]
    · rw [if_neg hcase]
  rw [hrun2, hDD2eq]
  exact ⟨s'', rfl⟩

/-- Witness for C8: a concrete fragmented two-container document where the
second `defrag()` changes nothing. -/
theorem defrag_idempotent_witness :
    WFdoc dFrag ∧
      ∃ s2, defragOp
        ⟨[mkItem [mkText "abcd".toList []], mkItem [mkText "efgh".toList []]]⟩
        ⟨some (0, 0), 1, some (1, 0), 3, true, []⟩ =
          some (⟨[mkItem [mkText "abcd".toList []],
            mkItem [mkText "efgh".toList []]]⟩, s2) :=
  ⟨by unfold WFdoc; decide,
    defrag_idempotent dFrag ⟨some (0, 0), 1, some (1, 1), 1, false, []⟩
      (0, 0) (1, 1) rfl rfl (by unfold WFdoc; decide)
      ⟨mkText "ab".toList [], by decide, rfl, by decide, by decide⟩
      ⟨mkText "gh".toList [], by decide, rfl, by decide, by decide⟩
      ⟨[mkItem [mkText "abcd".toList []], mkItem [mkText "efgh".toList []]]⟩
      ⟨some (0, 0), 1, some (1, 0), 3, true, []⟩ (by decide)⟩

end Wizdm
